import Mathlib

/-
Verification of the configuration-manager core (crates/core) against its
natural-language specification.  The Rust data model and operations are
shallowly embedded: serde maps become association lists, the filesystem
becomes an explicit state (a map from paths to file contents plus a set of
existing directories), and fallible operations return explicit error values.
Rust HashMap iteration order is modelled by list order; HashMap equality is
recovered through lookup-based statements and nodup-key hypotheses, since a
Rust HashMap never holds a duplicate key.
-/

set_option maxHeartbeats 1000000

namespace CCM

/-- JSON values (serde_json::Value), with numbers modelled as integers;
none of the verified claims depends on non-integer numerics. -/
inductive Json where
  | null : Json
  | bool (b : Bool) : Json
  | num (n : Int) : Json
  | str (s : String) : Json
  | arr (elems : List Json) : Json
  | obj (fields : List (String × Json)) : Json

mutual

/-- Decidable equality for the nested Json inductive (hand-written because
the deriving handler does not support nested inductives). -/
def Json.decEq : (a b : Json) → Decidable (a = b)
  | .null, .null => isTrue rfl
  | .bool x, .bool y =>
      if h : x = y then isTrue (by rw [h]) else isFalse (fun hc => by cases hc; exact h rfl)
  | .num x, .num y =>
      if h : x = y then isTrue (by rw [h]) else isFalse (fun hc => by cases hc; exact h rfl)
  | .str x, .str y =>
      if h : x = y then isTrue (by rw [h]) else isFalse (fun hc => by cases hc; exact h rfl)
  | .arr xs, .arr ys =>
      match Json.decEqList xs ys with
      | isTrue h => isTrue (by rw [h])
      | isFalse h => isFalse (fun hc => by cases hc; exact h rfl)
  | .obj xs, .obj ys =>
      match Json.decEqFields xs ys with
      | isTrue h => isTrue (by rw [h])
      | isFalse h => isFalse (fun hc => by cases hc; exact h rfl)
  | .null, .bool _ => isFalse (fun h => Json.noConfusion h)
  | .null, .num _ => isFalse (fun h => Json.noConfusion h)
  | .null, .str _ => isFalse (fun h => Json.noConfusion h)
  | .null, .arr _ => isFalse (fun h => Json.noConfusion h)
  | .null, .obj _ => isFalse (fun h => Json.noConfusion h)
  | .bool _, .null => isFalse (fun h => Json.noConfusion h)
  | .bool _, .num _ => isFalse (fun h => Json.noConfusion h)
  | .bool _, .str _ => isFalse (fun h => Json.noConfusion h)
  | .bool _, .arr _ => isFalse (fun h => Json.noConfusion h)
  | .bool _, .obj _ => isFalse (fun h => Json.noConfusion h)
  | .num _, .null => isFalse (fun h => Json.noConfusion h)
  | .num _, .bool _ => isFalse (fun h => Json.noConfusion h)
  | .num _, .str _ => isFalse (fun h => Json.noConfusion h)
  | .num _, .arr _ => isFalse (fun h => Json.noConfusion h)
  | .num _, .obj _ => isFalse (fun h => Json.noConfusion h)
  | .str _, .null => isFalse (fun h => Json.noConfusion h)
  | .str _, .bool _ => isFalse (fun h => Json.noConfusion h)
  | .str _, .num _ => isFalse (fun h => Json.noConfusion h)
  | .str _, .arr _ => isFalse (fun h => Json.noConfusion h)
  | .str _, .obj _ => isFalse (fun h => Json.noConfusion h)
  | .arr _, .null => isFalse (fun h => Json.noConfusion h)
  | .arr _, .bool _ => isFalse (fun h => Json.noConfusion h)
  | .arr _, .num _ => isFalse (fun h => Json.noConfusion h)
  | .arr _, .str _ => isFalse (fun h => Json.noConfusion h)
  | .arr _, .obj _ => isFalse (fun h => Json.noConfusion h)
  | .obj _, .null => isFalse (fun h => Json.noConfusion h)
  | .obj _, .bool _ => isFalse (fun h => Json.noConfusion h)
  | .obj _, .num _ => isFalse (fun h => Json.noConfusion h)
  | .obj _, .str _ => isFalse (fun h => Json.noConfusion h)
  | .obj _, .arr _ => isFalse (fun h => Json.noConfusion h)

/-- Decidable equality for lists of Json values. -/
def Json.decEqList : (xs ys : List Json) → Decidable (xs = ys)
  | [], [] => isTrue rfl
  | [], _ :: _ => isFalse (fun h => List.noConfusion h)
  | _ :: _, [] => isFalse (fun h => List.noConfusion h)
  | x :: xs, y :: ys =>
      match Json.decEq x y with
      | isFalse h => isFalse (fun hc => by cases hc; exact h rfl)
      | isTrue h1 =>
          match Json.decEqList xs ys with
          | isTrue h2 => isTrue (by rw [h1, h2])
          | isFalse h2 => isFalse (fun hc => by cases hc; exact h2 rfl)

/-- Decidable equality for Json object field lists. -/
def Json.decEqFields : (xs ys : List (String × Json)) → Decidable (xs = ys)
  | [], [] => isTrue rfl
  | [], _ :: _ => isFalse (fun h => List.noConfusion h)
  | _ :: _, [] => isFalse (fun h => List.noConfusion h)
  | (k, v) :: xs, (k2, v2) :: ys =>
      if hk : k = k2 then
        match Json.decEq v v2 with
        | isFalse h => isFalse (fun hc => by cases hc; exact h rfl)
        | isTrue h1 =>
            match Json.decEqFields xs ys with
            | isTrue h2 => isTrue (by rw [hk, h1, h2])
            | isFalse h2 => isFalse (fun hc => by cases hc; exact h2 rfl)
      else isFalse (fun hc => by cases hc; exact hk rfl)

end

instance : DecidableEq Json := Json.decEq

/-- Lookup in an association list, first match wins (models HashMap get,
which is unambiguous because a HashMap has no duplicate keys). -/
def lookupAL {V : Type} : List (String × V) → String → Option V
  | [], _ => none
  | (k, v) :: rest, key => if key = k then some v else lookupAL rest key

/-- Insert into an association list, replacing the first binding of the key
if present, appending otherwise (models HashMap::insert). -/
def insertAL {V : Type} : List (String × V) → String → V → List (String × V)
  | [], key, val => [(key, val)]
  | (k, v) :: rest, key, val =>
      if k = key then (k, val) :: rest else (k, v) :: insertAL rest key val

/-- Keys of an association list. -/
def keysAL {V : Type} (m : List (String × V)) : List String :=
  m.map Prod.fst

/-- Strict left-biased choice on options (Option::or with strict arguments). -/
def orElseO {V : Type} : Option V → Option V → Option V
  | some v, _ => some v
  | none, b => b

/-- MCP server entry (types.rs, struct McpServer).  The name field carries
serde(skip_deserializing): it is emitted on serialization but reset to the
default (empty string) on deserialization. -/
structure McpServer where
  name : String
  enabled : Bool
  command : Option String
  args : List String
  env : List (String × String)
  deriving DecidableEq

/-- Skill entry (types.rs, struct Skill); name likewise carries
serde(skip_deserializing). -/
structure Skill where
  name : String
  enabled : Bool
  parameters : Option Json
  deriving DecidableEq

/-- Configuration document (config/mod.rs, struct ClaudeConfig).  The four
known sections are optional; unrecognized top-level fields are captured in
the flattened unknown map. -/
structure ClaudeConfig where
  mcpServers : Option (List (String × McpServer))
  allowedPaths : Option (List String)
  skills : Option (List (String × Skill))
  customInstructions : Option (List String)
  unknown : List (String × Json)
  deriving DecidableEq

/-- ClaudeConfig::new / Default: every section absent, no unknown fields. -/
def emptyConfig : ClaudeConfig :=
  { mcpServers := none
    allowedPaths := none
    skills := none
    customInstructions := none
    unknown := [] }

/-- Fold a list of bindings into a map by repeated insertion (the Rust
for-loop over override entries calling HashMap::insert). -/
def insertAll {V : Type} (base : List (String × V)) (entries : List (String × V)) :
    List (String × V) :=
  entries.foldl (fun acc kv => insertAL acc kv.1 kv.2) base

/-- merge_configs (config/merge.rs).  Sections mcpServers and skills deep
merge at the entry level, allowedPaths and customInstructions replace when
the override section is present, unknown fields merge with override
precedence. -/
def mergeConfigs (baseConfig overrideConfig : ClaudeConfig) : ClaudeConfig :=
  let merged := baseConfig
  let merged :=
    match overrideConfig.mcpServers with
    | some overrideServers =>
        { merged with
          mcpServers := some (insertAll (merged.mcpServers.getD []) overrideServers) }
    | none => merged
  let merged :=
    if overrideConfig.allowedPaths.isSome then
      { merged with allowedPaths := overrideConfig.allowedPaths }
    else merged
  let merged :=
    match overrideConfig.skills with
    | some overrideSkills =>
        { merged with
          skills := some (insertAll (merged.skills.getD []) overrideSkills) }
    | none => merged
  let merged :=
    if overrideConfig.customInstructions.isSome then
      { merged with customInstructions := overrideConfig.customInstructions }
    else merged
  { merged with unknown := insertAll merged.unknown overrideConfig.unknown }

/-- Lookup inside an optional map section; an absent section holds no keys. -/
def sectionLookup {V : Type} (sec : Option (List (String × V))) (k : String) :
    Option V :=
  match sec with
  | none => none
  | some m => lookupAL m k

/-- Error values (error.rs, enum ConfigError).  File paths are lists of
components; io::Error payloads are dropped since no claim inspects them. -/
inductive ConfigError where
  | notFound (path : List String) : ConfigError
  | invalidJson (path : List String) (line column : Nat) (message : String) : ConfigError
  | validationFailed (rule details suggestion : String) : ConfigError
  | filesystem (operation : String) (path : List String) : ConfigError
  | backupFailed (path : List String) : ConfigError
  | permissionDenied (operation : String) (path : List String) : ConfigError
  | generic (message : String) : ConfigError
  deriving DecidableEq

/-- The NUL character rejected by the allowed-paths rule. -/
def nulChar : Char := Char.ofNat 0

/-- Shared loop of McpServersRule and SkillsRule: reject the first empty
name in the key list with the given rule name and messages. -/
def checkNames (rule details suggestion : String) : List String → Except ConfigError Unit
  | [] => Except.ok ()
  | n :: rest =>
      if n = "" then
        Except.error (ConfigError.validationFailed rule details suggestion)
      else checkNames rule details suggestion rest

/-- McpServersRule (config/validation.rs): every server name non-empty;
an absent or empty section passes. -/
def mcpServersRule (config : ClaudeConfig) : Except ConfigError Unit :=
  match config.mcpServers with
  | some s =>
      if s.isEmpty then Except.ok ()
      else
        checkNames "McpServersRule" "Server name is empty"
          "All MCP servers must have a non-empty name" (keysAL s)
  | none => Except.ok ()

/-- Loop of AllowedPathsRule over the path list with its running index.
The Rust detail strings interpolate the index or the path; the quotes the
Rust format string puts around the path are omitted here. -/
def checkPaths (idx : Nat) : List String → Except ConfigError Unit
  | [] => Except.ok ()
  | p :: rest =>
      if p = "" then
        Except.error (ConfigError.validationFailed "AllowedPathsRule"
          ("Path at index " ++ toString idx ++ " is empty")
          "All allowed paths must be non-empty strings")
      else if nulChar ∈ p.toList then
        Except.error (ConfigError.validationFailed "AllowedPathsRule"
          ("Path " ++ p ++ " contains null character")
          "Paths must be valid strings without null characters")
      else checkPaths (idx + 1) rest

/-- AllowedPathsRule (config/validation.rs): every path non-empty and free
of NUL characters; an absent or empty section passes. -/
def allowedPathsRule (config : ClaudeConfig) : Except ConfigError Unit :=
  match config.allowedPaths with
  | some p => if p.isEmpty then Except.ok () else checkPaths 0 p
  | none => Except.ok ()

/-- SkillsRule (config/validation.rs): every skill name non-empty; an
absent or empty section passes. -/
def skillsRule (config : ClaudeConfig) : Except ConfigError Unit :=
  match config.skills with
  | some s =>
      if s.isEmpty then Except.ok ()
      else
        checkNames "SkillsRule" "Skill name is empty"
          "All skills must have a non-empty name" (keysAL s)
  | none => Except.ok ()

/-- validate_config (config/validation.rs): run the three rules in their
fixed order, surfacing the first failure. -/
def validateConfig (config : ClaudeConfig) : Except ConfigError Unit := do
  mcpServersRule config
  allowedPathsRule config
  skillsRule config

/-- Serialization of an McpServer entry to a Json object (serde derive on
types.rs McpServer).  The name field has only skip_deserializing, so it IS
emitted; command is skipped when None; args and env are always emitted. -/
def serializeServer (s : McpServer) : Json :=
  Json.obj
    ([("name", Json.str s.name), ("enabled", Json.bool s.enabled)]
      ++ (match s.command with
          | some c => [("command", Json.str c)]
          | none => [])
      ++ [("args", Json.arr (s.args.map Json.str)),
          ("env", Json.obj (s.env.map (fun kv => (kv.1, Json.str kv.2))))])

/-- Serialization of a Skill entry (serde derive on types.rs Skill); name
is emitted, parameters skipped when None. -/
def serializeSkill (s : Skill) : Json :=
  Json.obj
    ([("name", Json.str s.name), ("enabled", Json.bool s.enabled)]
      ++ (match s.parameters with
          | some p => [("parameters", p)]
          | none => []))

/-- Serialized form of the optional mcpServers section: absent sections
are skipped entirely. -/
def serializeMcpSection (sec : Option (List (String × McpServer))) : List (String × Json) :=
  match sec with
  | some m => [("mcpServers", Json.obj (m.map (fun kv => (kv.1, serializeServer kv.2))))]
  | none => []

/-- Serialized form of the optional allowedPaths section. -/
def serializePathsSection (sec : Option (List String)) : List (String × Json) :=
  match sec with
  | some p => [("allowedPaths", Json.arr (p.map Json.str))]
  | none => []

/-- Serialized form of the optional skills section. -/
def serializeSkillsSection (sec : Option (List (String × Skill))) : List (String × Json) :=
  match sec with
  | some m => [("skills", Json.obj (m.map (fun kv => (kv.1, serializeSkill kv.2))))]
  | none => []

/-- Serialized form of the optional customInstructions section. -/
def serializeInstructionsSection (sec : Option (List String)) : List (String × Json) :=
  match sec with
  | some i => [("customInstructions", Json.arr (i.map Json.str))]
  | none => []

/-- Serialization of a ClaudeConfig to its top-level field list (serde
derive on config/mod.rs ClaudeConfig): known sections in declaration order,
each skipped when None, followed by the flattened unknown fields. -/
def serializeConfig (c : ClaudeConfig) : List (String × Json) :=
  serializeMcpSection c.mcpServers
  ++ serializePathsSection c.allowedPaths
  ++ serializeSkillsSection c.skills
  ++ serializeInstructionsSection c.customInstructions
  ++ c.unknown

/-- Decode a Json array of strings (Vec of String). -/
def asStringList : List Json → Except String (List String)
  | [] => Except.ok []
  | Json.str s :: rest => do
      let tail ← asStringList rest
      Except.ok (s :: tail)
  | _ :: _ => Except.error "invalid type: expected a string"

/-- Decode a Json object whose values are all strings (HashMap String to
String); duplicate keys follow map deserialization, later wins. -/
def asStringMap : List (String × Json) → Except String (List (String × String))
  | [] => Except.ok []
  | (k, Json.str s) :: rest => do
      let tail ← asStringMap rest
      Except.ok ((k, s) :: tail)
  | _ :: _ => Except.error "invalid type: expected a string value"

/-- Running state while deserializing the fields of an McpServer object;
an outer some marks the field as already seen (for duplicate detection). -/
structure ServerAcc where
  enabled : Option Bool
  command : Option (Option String)
  args : Option (List String)
  env : Option (List (String × String))

/-- Field loop of the derived Deserialize for McpServer: enabled must be a
boolean, command is an optional string (JSON null gives None), args decodes
a string array, env a string map; the name field and any other unknown
field are ignored; a duplicate known field is an error. -/
def deserializeServerFields : List (String × Json) → ServerAcc → Except String ServerAcc
  | [], acc => Except.ok acc
  | (k, v) :: rest, acc =>
      if k = "enabled" then
        match acc.enabled with
        | some _ => Except.error "duplicate field enabled"
        | none =>
            match v with
            | Json.bool b => deserializeServerFields rest { acc with enabled := some b }
            | _ => Except.error "invalid type: expected a boolean"
      else if k = "command" then
        match acc.command with
        | some _ => Except.error "duplicate field command"
        | none =>
            match v with
            | Json.null => deserializeServerFields rest { acc with command := some none }
            | Json.str s => deserializeServerFields rest { acc with command := some (some s) }
            | _ => Except.error "invalid type: expected a string or null"
      else if k = "args" then
        match acc.args with
        | some _ => Except.error "duplicate field args"
        | none =>
            match v with
            | Json.arr xs => do
                let l ← asStringList xs
                deserializeServerFields rest { acc with args := some l }
            | _ => Except.error "invalid type: expected an array"
      else if k = "env" then
        match acc.env with
        | some _ => Except.error "duplicate field env"
        | none =>
            match v with
            | Json.obj kvs => do
                let m ← asStringMap kvs
                deserializeServerFields rest { acc with env := some (insertAll [] m) }
            | _ => Except.error "invalid type: expected an object"
      else deserializeServerFields rest acc

/-- Deserialize an McpServer from a Json value: enabled is required, name
is skip_deserializing and comes back as the default empty string, args and
env default to empty. -/
def deserializeServer : Json → Except String McpServer
  | Json.obj kvs => do
      let acc ← deserializeServerFields kvs
        { enabled := none, command := none, args := none, env := none }
      match acc.enabled with
      | none => Except.error "missing field enabled"
      | some b =>
          Except.ok
            { name := ""
              enabled := b
              command := acc.command.getD none
              args := acc.args.getD []
              env := acc.env.getD [] }
  | _ => Except.error "invalid type: expected an object"

/-- Running state while deserializing the fields of a Skill object. -/
structure SkillAcc where
  enabled : Option Bool
  parameters : Option (Option Json)

/-- Field loop of the derived Deserialize for Skill: enabled must be a
boolean; parameters is an optional Json value where an explicit null decodes
to None; name and unknown fields are ignored. -/
def deserializeSkillFields : List (String × Json) → SkillAcc → Except String SkillAcc
  | [], acc => Except.ok acc
  | (k, v) :: rest, acc =>
      if k = "enabled" then
        match acc.enabled with
        | some _ => Except.error "duplicate field enabled"
        | none =>
            match v with
            | Json.bool b => deserializeSkillFields rest { acc with enabled := some b }
            | _ => Except.error "invalid type: expected a boolean"
      else if k = "parameters" then
        match acc.parameters with
        | some _ => Except.error "duplicate field parameters"
        | none =>
            match v with
            | Json.null => deserializeSkillFields rest { acc with parameters := some none }
            | other => deserializeSkillFields rest { acc with parameters := some (some other) }
      else deserializeSkillFields rest acc

/-- Deserialize a Skill from a Json value: enabled required, name reset to
the empty string by skip_deserializing. -/
def deserializeSkill : Json → Except String Skill
  | Json.obj kvs => do
      let acc ← deserializeSkillFields kvs { enabled := none, parameters := none }
      match acc.enabled with
      | none => Except.error "missing field enabled"
      | some b =>
          Except.ok { name := "", enabled := b, parameters := acc.parameters.getD none }
  | _ => Except.error "invalid type: expected an object"

/-- Entry loop of serde map deserialization into a HashMap: values decode
in order and are inserted into the accumulated map, a later duplicate key
overwriting an earlier one. -/
def deserializeSectionGo {V : Type} (dec : Json → Except String V) :
    List (String × Json) → List (String × V) → Except String (List (String × V))
  | [], acc => Except.ok acc
  | (k, v) :: rest, acc => do
      let hd ← dec v
      deserializeSectionGo dec rest (insertAL acc k hd)

/-- Decode a map section whose values deserialize with the given decoder. -/
def deserializeSection {V : Type} (dec : Json → Except String V)
    (kvs : List (String × Json)) : Except String (List (String × V)) :=
  deserializeSectionGo dec kvs []

/-- Running state while deserializing the top-level ClaudeConfig fields;
outer some marks a known field as seen. -/
structure ConfigAcc where
  mcpServers : Option (Option (List (String × McpServer)))
  allowedPaths : Option (Option (List String))
  skills : Option (Option (List (String × Skill)))
  customInstructions : Option (Option (List String))
  unknown : List (String × Json)

/-- One step of the top-level field loop of the derived Deserialize for
ClaudeConfig with its flattened unknown map: a known field is decoded (JSON
null gives an absent Option section, a duplicate is an error); every other
key is collected into the unknown map where a later duplicate overwrites. -/
def deserializeConfigStep (acc : ConfigAcc) (kv : String × Json) : Except String ConfigAcc :=
  if kv.1 = "mcpServers" then
    match acc.mcpServers with
    | some _ => Except.error "duplicate field mcpServers"
    | none =>
        match kv.2 with
        | Json.null => Except.ok { acc with mcpServers := some none }
        | Json.obj kvs => do
            let m ← deserializeSection deserializeServer kvs
            Except.ok { acc with mcpServers := some (some m) }
        | _ => Except.error "invalid type: expected an object"
  else if kv.1 = "allowedPaths" then
    match acc.allowedPaths with
    | some _ => Except.error "duplicate field allowedPaths"
    | none =>
        match kv.2 with
        | Json.null => Except.ok { acc with allowedPaths := some none }
        | Json.arr xs => do
            let l ← asStringList xs
            Except.ok { acc with allowedPaths := some (some l) }
        | _ => Except.error "invalid type: expected an array"
  else if kv.1 = "skills" then
    match acc.skills with
    | some _ => Except.error "duplicate field skills"
    | none =>
        match kv.2 with
        | Json.null => Except.ok { acc with skills := some none }
        | Json.obj kvs => do
            let m ← deserializeSection deserializeSkill kvs
            Except.ok { acc with skills := some (some m) }
        | _ => Except.error "invalid type: expected an object"
  else if kv.1 = "customInstructions" then
    match acc.customInstructions with
    | some _ => Except.error "duplicate field customInstructions"
    | none =>
        match kv.2 with
        | Json.null => Except.ok { acc with customInstructions := some none }
        | Json.arr xs => do
            let l ← asStringList xs
            Except.ok { acc with customInstructions := some (some l) }
        | _ => Except.error "invalid type: expected an array"
  else
    Except.ok { acc with unknown := insertAL acc.unknown kv.1 kv.2 }

/-- Top-level field loop: the serde visitor walks the fields in order,
stopping at the first error. -/
def deserializeConfigFields (kvs : List (String × Json)) (acc : ConfigAcc) :
    Except String ConfigAcc :=
  List.foldlM deserializeConfigStep acc kvs

/-- Deserialize a ClaudeConfig from a top-level field list; every known
field is optional and defaults to an absent section. -/
def deserializeConfig (kvs : List (String × Json)) : Except String ClaudeConfig := do
  let acc ← deserializeConfigFields kvs
    { mcpServers := none, allowedPaths := none, skills := none
      customInstructions := none, unknown := [] }
  Except.ok
    { mcpServers := acc.mcpServers.getD none
      allowedPaths := acc.allowedPaths.getD none
      skills := acc.skills.getD none
      customInstructions := acc.customInstructions.getD none
      unknown := acc.unknown }

/-- Keys of a Json object (empty for any other value); used to state which
fields a serialized entry carries. -/
def objKeys : Json → List String
  | Json.obj kvs => keysAL kvs
  | _ => []

mutual

/-- Compact textual rendering of a Json value.  The Rust code serializes
with to_string_pretty; no claim inspects the produced text, only whether a
whole file equals a previously written one, so whitespace is immaterial. -/
def Json.render : Json → String
  | .null => "null"
  | .bool b => if b then "true" else "false"
  | .num n => toString n
  | .str s => "\"" ++ s ++ "\""
  | .arr xs => "[" ++ Json.renderList xs ++ "]"
  | .obj kvs => "\x7b" ++ Json.renderFields kvs ++ "\x7d"

/-- Render the comma-separated elements of a Json array. -/
def Json.renderList : List Json → String
  | [] => ""
  | [x] => Json.render x
  | x :: rest => Json.render x ++ "," ++ Json.renderList rest

/-- Render the comma-separated fields of a Json object. -/
def Json.renderFields : List (String × Json) → String
  | [] => ""
  | [(k, v)] => "\"" ++ k ++ "\":" ++ Json.render v
  | (k, v) :: rest => "\"" ++ k ++ "\":" ++ Json.render v ++ "," ++ Json.renderFields rest

end

/-- Textual serialization of a configuration document (serde_json
to_string_pretty in write_config_with_backup, modulo whitespace). -/
def renderConfig (c : ClaudeConfig) : String :=
  Json.render (Json.obj (serializeConfig c))

/-- Filesystem state: file contents by path (a path is its list of
components) and which directories exist. -/
structure FS where
  files : List String → Option String
  dirs : List String → Bool

/-- Set or delete one file. -/
def setFile (fs : FS) (p : List String) (c : Option String) : FS :=
  { fs with files := fun q => if q = p then c else fs.files q }

/-- Mark one directory as existing (fs::create_dir_all succeeding). -/
def addDir (fs : FS) (p : List String) : FS :=
  { fs with dirs := fun q => if q = p then true else fs.dirs q }

/-- fs::rename: the destination receives the source content, the source
disappears; renaming a path onto itself leaves the file in place. -/
def renameFile (fs : FS) (src dst : List String) : FS :=
  { fs with
    files := fun q =>
      if q = dst then fs.files src else if q = src then none else fs.files q }

/-- Last path component, empty for the empty path. -/
def lastComp (p : List String) : String :=
  p.getLast?.getD ""

/-- Index of the last dot in a component, if any. -/
def lastDotIdx (cs : List Char) : Option Nat :=
  match cs.reverse.findIdx? (fun c => c = '.') with
  | none => none
  | some i => some (cs.length - 1 - i)

/-- Rust Path::file_stem / Path::extension semantics on one component:
split at the last dot unless it is the leading character. -/
def stemExt (s : String) : String × Option String :=
  let cs := s.toList
  match lastDotIdx cs with
  | none => (s, none)
  | some 0 => (s, none)
  | some i => ((cs.take i).asString, some ((cs.drop (i + 1)).asString))

/-- PathBuf::with_extension("tmp") on the final component: the stem with
the extension replaced by tmp.  Note this does NOT append to the full name,
so a component already ending in .tmp maps to itself. -/
def withExtensionTmp (comp : String) : String :=
  (stemExt comp).1 ++ ".tmp"

/-- The sibling temporary path used by atomic_write (target with its
extension set to tmp). -/
def tempPath (target : List String) : List String :=
  target.dropLast ++ [withExtensionTmp (lastComp target)]

/-- file_stem().unwrap_or("config") as used by create_backup. -/
def fileStemD (comp : String) : String :=
  if comp = "" then "config" else (stemExt comp).1

/-- extension().unwrap_or("json") as used by create_backup. -/
def extD (comp : String) : String :=
  if comp = "" then "json" else ((stemExt comp).2.getD "json")

/-- Environment oracle for one write operation: the clock reading used in
the backup filename and which fallible filesystem primitive, if any, fails.
A write failure also says how many bytes reached the temp file first. -/
structure Oracle where
  timestamp : String
  backupDirCreateFails : Bool
  backupCopyFails : Bool
  serializeFails : Bool
  createDirFails : Bool
  tempCreateFails : Bool
  tempWriteFails : Bool
  tempWrittenBytes : Nat
  tempFlushFails : Bool
  renameFails : Bool

/-- Name of the backup file create_backup derives: stem, underscore,
timestamp, dot, extension. -/
def backupFileName (o : Oracle) (filePath : List String) : String :=
  fileStemD (lastComp filePath) ++ "_" ++ o.timestamp ++ "." ++ extD (lastComp filePath)

/-- Full path of the backup file inside the backup directory. -/
def backupPath (backupDir : List String) (o : Oracle) (filePath : List String) :
    List String :=
  backupDir ++ [backupFileName o filePath]

/-- BackupManager::create_backup (backup/mod.rs): require the source to
exist, create the backup directory if absent, then copy the source bytes to
the timestamped backup path.  Returns the error, if any, with the resulting
filesystem state. -/
def createBackup (backupDir : List String) (o : Oracle) (fs : FS)
    (filePath : List String) : Option ConfigError × FS :=
  if (fs.files filePath).isNone then (some (ConfigError.notFound filePath), fs)
  else
    let step :=
      if fs.dirs backupDir then (none, fs)
      else if o.backupDirCreateFails then
        (some (ConfigError.filesystem "create backup directory" backupDir), fs)
      else (none, addDir fs backupDir)
    match step with
    | (some e, fs1) => (some e, fs1)
    | (none, fs1) =>
        if o.backupCopyFails then
          (some (ConfigError.filesystem "copy file to backup" filePath), fs1)
        else (none, setFile fs1 (backupPath backupDir o filePath) (fs1.files filePath))

/-- ConfigManager::atomic_write (config/manager.rs): ensure the parent
directory, create and fill the temp file, then rename it onto the target;
a failed rename deletes the temp file. -/
def atomicWrite (o : Oracle) (fs : FS) (target : List String) (content : String) :
    Option ConfigError × FS :=
  let parent := target.dropLast
  let step :=
    if fs.dirs parent then (none, fs)
    else if o.createDirFails then
      (some (ConfigError.filesystem "create config directory" parent), fs)
    else (none, addDir fs parent)
  match step with
  | (some e, fs1) => (some e, fs1)
  | (none, fs1) =>
      let temp := tempPath target
      if o.tempCreateFails then
        (some (ConfigError.filesystem "create temp file" temp), fs1)
      else if o.tempWriteFails then
        (some (ConfigError.filesystem "write to temp file" temp),
          setFile fs1 temp (some ((content.toList.take o.tempWrittenBytes).asString)))
      else
        let fs2 := setFile fs1 temp (some content)
        if o.tempFlushFails then
          (some (ConfigError.filesystem "flush temp file" temp), fs2)
        else if o.renameFails then
          (some (ConfigError.filesystem "atomic rename temp to config" target),
            setFile fs2 temp none)
        else (none, renameFile fs2 temp target)

/-- ConfigManager::write_config_with_backup (config/manager.rs): back up an
existing target, validate, serialize, then write atomically. -/
def writeConfigWithBackup (backupDir : List String) (o : Oracle) (fs : FS)
    (path : List String) (cfg : ClaudeConfig) : Option ConfigError × FS :=
  let step1 :=
    if (fs.files path).isSome then createBackup backupDir o fs path else (none, fs)
  match step1 with
  | (some e, fs1) => (some e, fs1)
  | (none, fs1) =>
      match validateConfig cfg with
      | Except.error e => (some e, fs1)
      | Except.ok _ =>
          if o.serializeFails then
            (some (ConfigError.generic "Failed to serialize config"), fs1)
          else atomicWrite o fs1 path (renderConfig cfg)

/-- Environment oracle for a restore operation. -/
structure RestoreOracle where
  mkdirFails : Bool
  copyFails : Bool

/-- backup_dir.parent().unwrap_or(backup_dir): the backup directory with
its last component dropped, or itself when it has none. -/
def parentD (p : List String) : List String :=
  if p = [] then p else p.dropLast

/-- Original stem derived by restore_backup: the portion of the backup file
stem before the first underscore (the whole stem when it has none, since
split always yields a first piece). -/
def restoreStem (comp : String) : String :=
  ((stemExt comp).1.toList.takeWhile (fun c => c != '_')).asString

/-- Path restore_backup copies to: parent of the backup directory joined
with the derived stem and the backup extension (json by default). -/
def restoreDest (backupDir : List String) (comp : String) : List String :=
  parentD backupDir ++ [restoreStem comp ++ "." ++ ((stemExt comp).2.getD "json")]

/-- BackupManager::restore_backup (backup/mod.rs): require the backup to
exist, derive the original path from the backup filename, create missing
parent directories, and copy the bytes over, overwriting.  The only
name-shape failures are an unreadable file name (empty path) and an absent
file stem (empty component); both surface as a ValidationFailed error named
BackupRestore. -/
def restoreBackup (backupDir : List String) (o : RestoreOracle) (fs : FS)
    (bp : List String) : Except ConfigError (List String) × FS :=
  if (fs.files bp).isNone then (Except.error (ConfigError.notFound bp), fs)
  else
    match bp.getLast? with
    | none =>
        (Except.error (ConfigError.validationFailed "BackupRestore"
          "Invalid backup file name"
          "Ensure the backup file follows the naming pattern: <filename>_<timestamp>.<ext>"),
          fs)
    | some comp =>
        if comp = "" then
          (Except.error (ConfigError.validationFailed "BackupRestore"
            ("Could not determine original file path from backup name: " ++ comp)
            "Ensure the backup file follows the naming pattern: <filename>_<timestamp>.<ext>"),
            fs)
        else
          let origFile := restoreDest backupDir comp
          let parent2 := origFile.dropLast
          let step :=
            if fs.dirs parent2 then (none, fs)
            else if o.mkdirFails then
              (some (ConfigError.filesystem "create parent directory" parent2), fs)
            else (none, addDir fs parent2)
          match step with
          | (some e, fs1) => (Except.error e, fs1)
          | (none, fs1) =>
              if o.copyFails then
                (Except.error (ConfigError.filesystem "restore backup" origFile), fs1)
              else (Except.ok origFile, setFile fs1 origFile (fs1.files bp))

/-- Configuration scope (types.rs ConfigScope). -/
inductive ConfigScope where
  | global : ConfigScope
  | project : ConfigScope
  deriving DecidableEq

/-- Structural difference record (types.rs ConfigDiff). -/
inductive ConfigDiff where
  | added (keyPath : String) (value : Json) : ConfigDiff
  | removed (keyPath : String) (value : Json) : ConfigDiff
  | modified (keyPath : String) (oldValue newValue : Json) : ConfigDiff
  deriving DecidableEq

/-- ConfigDiff::key_path. -/
def diffKeyPath : ConfigDiff → String
  | ConfigDiff.added kp _ => kp
  | ConfigDiff.removed kp _ => kp
  | ConfigDiff.modified kp _ _ => kp

/-- Dot-joining of key paths used by compare_values, find_additions and the
search engine. -/
def joinPath (kp k : String) : String :=
  if kp = "" then k else kp ++ "." ++ k

/-- Accumulated diff list and source-map bindings, threaded like the two
mutable references in the Rust code; the source map is an association list
updated by HashMap::insert. -/
def DiffAcc : Type := List ConfigDiff × List (String × ConfigScope)

/-- Loop of ConfigManager::compare_values over the keys of the global
object, with the project object held fixed. -/
def compareValuesObjGo (pm : List (String × Json)) (keyPath : String)
    (gscope : ConfigScope) : List (String × Json) → DiffAcc → DiffAcc
  | [], acc => acc
  | (k, gv) :: rest, acc =>
      let newPath := joinPath keyPath k
      let acc2 :=
        match lookupAL pm k with
        | some pv =>
            if gv ≠ pv then
              (acc.1 ++ [ConfigDiff.modified newPath gv pv],
                insertAL acc.2 newPath ConfigScope.project)
            else (acc.1, insertAL acc.2 newPath gscope)
        | none =>
            (acc.1 ++ [ConfigDiff.removed newPath gv],
              insertAL acc.2 newPath ConfigScope.global)
      compareValuesObjGo pm keyPath gscope rest acc2

/-- ConfigManager::compare_values (config/manager.rs): objects compare key
by key without recursion, arrays and scalars compare by whole-value
equality. -/
def compareValues (global project : Json) (keyPath : String)
    (gscope : ConfigScope) (acc : DiffAcc) : DiffAcc :=
  match global, project with
  | Json.obj gm, Json.obj pm => compareValuesObjGo pm keyPath gscope gm acc
  | Json.arr ga, Json.arr pa =>
      if ga ≠ pa then
        (acc.1 ++ [ConfigDiff.modified keyPath (Json.arr ga) (Json.arr pa)],
          insertAL acc.2 keyPath ConfigScope.project)
      else acc
  | g, p =>
      if g ≠ p then
        (acc.1 ++ [ConfigDiff.modified keyPath g p],
          insertAL acc.2 keyPath ConfigScope.project)
      else acc

mutual

/-- Loop of ConfigManager::find_additions over the keys of the project
object: a key absent from the global object is an addition, and when its
value is an object the loop recurses against an empty global object. -/
def findAdditionsGo (gm : List (String × Json)) (keyPath : String)
    (pscope : ConfigScope) : List (String × Json) → DiffAcc → DiffAcc
  | [], acc => acc
  | (k, pv) :: rest, acc =>
      findAdditionsGo gm keyPath pscope rest
        (if (lookupAL gm k).isSome then acc
         else findAddedEntry keyPath pscope k pv acc)

/-- Emission of one addition: the Added record and its source-map binding,
followed by the recursion into a nested object against the empty global
object. -/
def findAddedEntry (keyPath : String) (pscope : ConfigScope) (k : String) :
    Json → DiffAcc → DiffAcc
  | Json.obj nested, acc =>
      findAdditionsGo [] (joinPath keyPath k) pscope nested
        (acc.1 ++ [ConfigDiff.added (joinPath keyPath k) (Json.obj nested)],
          insertAL acc.2 (joinPath keyPath k) pscope)
  | pv, acc =>
      (acc.1 ++ [ConfigDiff.added (joinPath keyPath k) pv],
        insertAL acc.2 (joinPath keyPath k) pscope)

end

/-- ConfigManager::find_additions (config/manager.rs). -/
def findAdditions (global project : Json) (keyPath : String)
    (pscope : ConfigScope) (acc : DiffAcc) : DiffAcc :=
  match global, project with
  | Json.obj gm, Json.obj pm => findAdditionsGo gm keyPath pscope pm acc
  | _, _ => acc

/-- The diff pipeline of ConfigManager::diff_configs once both documents
have been serialized to top-level JSON objects: compare_values from the
global scope, then find_additions from the project scope. -/
def diffTopLevel (gm pm : List (String × Json)) : DiffAcc :=
  let acc := compareValues (Json.obj gm) (Json.obj pm) "" ConfigScope.global ([], [])
  findAdditions (Json.obj gm) (Json.obj pm) "" ConfigScope.project acc

/-- Diff records emitted by the compare_values loop, as a plain list. -/
def cvDiffs (pm : List (String × Json)) (keyPath : String) :
    List (String × Json) → List ConfigDiff
  | [] => []
  | (k, gv) :: rest =>
      (match lookupAL pm k with
       | some pv =>
          if gv ≠ pv then [ConfigDiff.modified (joinPath keyPath k) gv pv] else []
       | none => [ConfigDiff.removed (joinPath keyPath k) gv])
      ++ cvDiffs pm keyPath rest

/-- Source-map bindings emitted by the compare_values loop, in emission
order. -/
def cvSM (pm : List (String × Json)) (keyPath : String) (gscope : ConfigScope) :
    List (String × Json) → List (String × ConfigScope)
  | [] => []
  | (k, gv) :: rest =>
      (match lookupAL pm k with
       | some pv =>
          if gv ≠ pv then [(joinPath keyPath k, ConfigScope.project)]
          else [(joinPath keyPath k, gscope)]
       | none => [(joinPath keyPath k, ConfigScope.global)])
      ++ cvSM pm keyPath gscope rest

mutual

/-- Diff records emitted by the find_additions loop, as a plain list. -/
def faDiffs (gm : List (String × Json)) (keyPath : String) :
    List (String × Json) → List ConfigDiff
  | [] => []
  | (k, pv) :: rest =>
      (if (lookupAL gm k).isSome then [] else faEntryDiffs keyPath k pv)
      ++ faDiffs gm keyPath rest

/-- Diff records emitted for one addition, including the nested ones. -/
def faEntryDiffs (keyPath : String) (k : String) : Json → List ConfigDiff
  | Json.obj nested =>
      ConfigDiff.added (joinPath keyPath k) (Json.obj nested) ::
        faDiffs [] (joinPath keyPath k) nested
  | pv => [ConfigDiff.added (joinPath keyPath k) pv]

end

mutual

/-- Source-map bindings emitted by the find_additions loop, in emission
order. -/
def faSM (gm : List (String × Json)) (keyPath : String) (pscope : ConfigScope) :
    List (String × Json) → List (String × ConfigScope)
  | [] => []
  | (k, pv) :: rest =>
      (if (lookupAL gm k).isSome then [] else faEntrySM keyPath pscope k pv)
      ++ faSM gm keyPath pscope rest

/-- Source-map bindings emitted for one addition, including nested ones. -/
def faEntrySM (keyPath : String) (pscope : ConfigScope) (k : String) :
    Json → List (String × ConfigScope)
  | Json.obj nested =>
      (joinPath keyPath k, pscope) :: faSM [] (joinPath keyPath k) pscope nested
  | _ => [(joinPath keyPath k, pscope)]

end

/-- Coarse value type tag reported by the search engine (search.rs). -/
inductive ValueType where
  | string : ValueType
  | number : ValueType
  | boolean : ValueType
  | object : ValueType
  | array : ValueType
  | null : ValueType
  deriving DecidableEq

/-- Search options (search.rs SearchOptions). -/
structure SearchOptions where
  searchKeys : Bool
  searchValues : Bool
  caseSensitive : Bool
  regex : Bool
  maxDepth : Option Nat
  deriving DecidableEq

/-- SearchOptions::default. -/
def defaultSearchOptions : SearchOptions :=
  { searchKeys := true
    searchValues := false
    caseSensitive := false
    regex := false
    maxDepth := none }

/-- A single search result (search.rs SearchResult). -/
structure SearchResult where
  keyPath : String
  value : String
  source : ConfigScope
  configPath : List String
  valueType : ValueType
  deriving DecidableEq

/-- Character-list test: does the needle start the haystack. -/
def prefixCheck : List Char → List Char → Bool
  | [], _ => true
  | _ :: _, [] => false
  | a :: as, b :: bs => a = b && prefixCheck as bs

/-- Character-list test: does the needle occur contiguously in the
haystack (str::contains on substrings). -/
def infixCheck (needle : List Char) : List Char → Bool
  | [] => prefixCheck needle []
  | c :: t => prefixCheck needle (c :: t) || infixCheck needle t

/-- Substring containment on strings. -/
def strContains (hay needle : String) : Bool :=
  infixCheck needle.toList hay.toList

/-- Character-wise lowercasing, modelling str::to_lowercase. -/
def lowerStr (s : String) : String :=
  (s.toList.map Char.toLower).asString

/-- ConfigSearcher::matches: substring containment, case-folded unless the
case-sensitive option is set. -/
def matchesQ (opts : SearchOptions) (query text : String) : Bool :=
  if opts.caseSensitive then strContains text query
  else strContains (lowerStr text) (lowerStr query)

/-- The depth guard at the top of search_value: with a max depth set,
strictly deeper nodes are cut off. -/
def depthExceeded (opts : SearchOptions) (depth : Nat) : Bool :=
  match opts.maxDepth with
  | some m => decide (depth > m)
  | none => false

/-- Rendering of a boolean value for value search. -/
def boolStr (b : Bool) : String :=
  if b then "true" else "false"

mutual

/-- ConfigSearcher::search_value (search.rs): depth-guarded recursive walk
collecting key and value matches in traversal order. -/
def searchValue (opts : SearchOptions) (query : String) :
    Json → String → ConfigScope → List String → Nat → List SearchResult
  | v, currentPath, source, configPath, depth =>
      if depthExceeded opts depth then []
      else
        match v with
        | Json.obj kvs =>
            searchObjEntries opts query kvs currentPath source configPath depth
        | Json.arr xs =>
            searchArrEntries opts query xs 0 currentPath source configPath depth
        | Json.str s =>
            if opts.searchValues && matchesQ opts query s then
              [⟨currentPath, s, source, configPath, ValueType.string⟩]
            else []
        | Json.num n =>
            if opts.searchValues && matchesQ opts query (toString n) then
              [⟨currentPath, toString n, source, configPath, ValueType.number⟩]
            else []
        | Json.bool b =>
            if opts.searchValues && matchesQ opts query (boolStr b) then
              [⟨currentPath, boolStr b, source, configPath, ValueType.boolean⟩]
            else []
        | Json.null => []

/-- Object loop of search_value: a key match is pushed before the
recursion into the corresponding value. -/
def searchObjEntries (opts : SearchOptions) (query : String) :
    List (String × Json) → String → ConfigScope → List String → Nat → List SearchResult
  | [], _, _, _, _ => []
  | (k, val) :: rest, currentPath, source, configPath, depth =>
      let newPath := joinPath currentPath k
      (if opts.searchKeys && matchesQ opts query k then
        [⟨newPath, "<key> " ++ k, source, configPath, ValueType.string⟩]
      else [])
        ++ searchValue opts query val newPath source configPath (depth + 1)
        ++ searchObjEntries opts query rest currentPath source configPath depth

/-- Array loop of search_value, tracking the element index for the path. -/
def searchArrEntries (opts : SearchOptions) (query : String) :
    List Json → Nat → String → ConfigScope → List String → Nat → List SearchResult
  | [], _, _, _, _, _ => []
  | x :: rest, index, currentPath, source, configPath, depth =>
      searchValue opts query x (currentPath ++ "[" ++ toString index ++ "]")
          source configPath (depth + 1)
        ++ searchArrEntries opts query rest (index + 1) currentPath source configPath depth

end

mutual

/-- Reference search without any depth limit, following the specification
words: with maxDepth unset, no depth limit applies.  Used only to state the
depth-boundary property of searchValue. -/
def searchNoLimit (opts : SearchOptions) (query : String) :
    Json → String → ConfigScope → List String → Nat → List SearchResult
  | v, currentPath, source, configPath, depth =>
      match v with
      | Json.obj kvs =>
          searchNoLimitObj opts query kvs currentPath source configPath depth
      | Json.arr xs =>
          searchNoLimitArr opts query xs 0 currentPath source configPath depth
      | Json.str s =>
          if opts.searchValues && matchesQ opts query s then
            [⟨currentPath, s, source, configPath, ValueType.string⟩]
          else []
      | Json.num n =>
          if opts.searchValues && matchesQ opts query (toString n) then
            [⟨currentPath, toString n, source, configPath, ValueType.number⟩]
          else []
      | Json.bool b =>
          if opts.searchValues && matchesQ opts query (boolStr b) then
            [⟨currentPath, boolStr b, source, configPath, ValueType.boolean⟩]
          else []
      | Json.null => []

/-- Object loop of the reference unlimited search. -/
def searchNoLimitObj (opts : SearchOptions) (query : String) :
    List (String × Json) → String → ConfigScope → List String → Nat → List SearchResult
  | [], _, _, _, _ => []
  | (k, val) :: rest, currentPath, source, configPath, depth =>
      let newPath := joinPath currentPath k
      (if opts.searchKeys && matchesQ opts query k then
        [⟨newPath, "<key> " ++ k, source, configPath, ValueType.string⟩]
      else [])
        ++ searchNoLimit opts query val newPath source configPath (depth + 1)
        ++ searchNoLimitObj opts query rest currentPath source configPath depth

/-- Array loop of the reference unlimited search. -/
def searchNoLimitArr (opts : SearchOptions) (query : String) :
    List Json → Nat → String → ConfigScope → List String → Nat → List SearchResult
  | [], _, _, _, _, _ => []
  | x :: rest, index, currentPath, source, configPath, depth =>
      searchNoLimit opts query x (currentPath ++ "[" ++ toString index ++ "]")
          source configPath (depth + 1)
        ++ searchNoLimitArr opts query rest (index + 1) currentPath source configPath depth

end

mutual

/-- Truncation of a Json tree to the given remaining height: at height
zero the node disappears (becomes null, which the search never matches);
otherwise object and array children lose one unit of height. -/
def truncateJson : Nat → Json → Json
  | 0, _ => Json.null
  | n + 1, Json.obj kvs => Json.obj (truncateFields n kvs)
  | n + 1, Json.arr xs => Json.arr (truncateList n xs)
  | _ + 1, v => v

/-- Truncation of object fields. -/
def truncateFields : Nat → List (String × Json) → List (String × Json)
  | _, [] => []
  | n, (k, v) :: rest => (k, truncateJson n v) :: truncateFields n rest

/-- Truncation of array elements. -/
def truncateList : Nat → List Json → List Json
  | _, [] => []
  | n, x :: rest => truncateJson n x :: truncateList n rest

end

/-- Keys of an optional map section. -/
def keysOf {V : Type} (sec : Option (List (String × V))) : List String :=
  keysAL (sec.getD [])

/-- Specification predicate: every server name in the document is
non-empty. -/
def serverNamesOk (c : ClaudeConfig) : Prop :=
  ∀ k ∈ keysOf c.mcpServers, k ≠ ""

/-- Specification predicate: every allowed path is non-empty and carries
no NUL character. -/
def allowedPathsOk (c : ClaudeConfig) : Prop :=
  ∀ p ∈ c.allowedPaths.getD [], p ≠ "" ∧ nulChar ∉ p.toList

/-- Specification predicate: every skill name in the document is
non-empty. -/
def skillNamesOk (c : ClaudeConfig) : Prop :=
  ∀ k ∈ keysOf c.skills, k ≠ ""

instance (c : ClaudeConfig) : Decidable (serverNamesOk c) := by
  unfold serverNamesOk; infer_instance

instance (c : ClaudeConfig) : Decidable (allowedPathsOk c) := by
  unfold allowedPathsOk; infer_instance

instance (c : ClaudeConfig) : Decidable (skillNamesOk c) := by
  unfold skillNamesOk; infer_instance

/-- Rule name carried by a validation outcome, if it is a validation
failure. -/
def ruleNameOf : Except ConfigError Unit → Option String
  | Except.error (ConfigError.validationFailed r _ _) => some r
  | _ => none

/-- The four known top-level field names of a configuration document. -/
def knownKeys : List String :=
  ["mcpServers", "allowedPaths", "skills", "customInstructions"]

/-- A document with every server and skill name field replaced by the
empty string: exactly what a serialize-then-deserialize round trip
produces, because serde(skip_deserializing) resets the name fields to
their default. -/
def clearNames (c : ClaudeConfig) : ClaudeConfig :=
  { c with
    mcpServers := c.mcpServers.map (List.map (fun kv => (kv.1, { kv.2 with name := "" })))
    skills := c.skills.map (List.map (fun kv => (kv.1, { kv.2 with name := "" }))) }

/-- Accumulator field value after deserializing a serialized mcpServers
section: seen with cleared names when present, unseen otherwise. -/
def clearedServerSec (sec : Option (List (String × McpServer))) :
    Option (Option (List (String × McpServer))) :=
  match sec with
  | some m => some (some (m.map fun kv => (kv.1, { kv.2 with name := "" })))
  | none => none

/-- Accumulator field value after deserializing a serialized skills
section. -/
def clearedSkillSec (sec : Option (List (String × Skill))) :
    Option (Option (List (String × Skill))) :=
  match sec with
  | some m => some (some (m.map fun kv => (kv.1, { kv.2 with name := "" })))
  | none => none

/-- Accumulator field value after deserializing a serialized list section:
seen with the same list when present, unseen otherwise. -/
def seenOpt {V : Type} (sec : Option V) : Option (Option V) :=
  match sec with
  | some v => some (some v)
  | none => none

/-- Well-formedness of a document as a value of the Rust data model: map
sections and per-server environment maps have duplicate-free keys (HashMap
invariant), unknown keys avoid the known field names (invariant of every
deserialized document), and no skill parameter is the explicit JSON null
(Option of Value cannot represent it after deserialization). -/
def docWellFormed (c : ClaudeConfig) : Prop :=
  (keysOf c.mcpServers).Nodup
  ∧ (keysOf c.skills).Nodup
  ∧ (c.unknown.map Prod.fst).Nodup
  ∧ (∀ kv ∈ (c.mcpServers.getD []), (kv.2.env.map Prod.fst).Nodup)
  ∧ (∀ kv ∈ c.unknown, kv.1 ∉ knownKeys)
  ∧ (∀ kv ∈ (c.skills.getD []), kv.2.parameters ≠ some Json.null)

instance (c : ClaudeConfig) : Decidable (docWellFormed c) := by
  unfold docWellFormed; infer_instance

/-- A key string usable in an unambiguous dot-delimited path: non-empty
and free of dots. -/
def goodKey (s : String) : Bool :=
  (s != "") && !(s.toList.contains '.')

mutual

/-- Every object key inside the value, at any depth, is non-empty and
dot-free. -/
def jsonGoodKeys : Json → Bool
  | Json.obj kvs => fieldsGoodKeys kvs
  | Json.arr xs => listGoodKeys xs
  | _ => true

/-- Key check over object fields. -/
def fieldsGoodKeys : List (String × Json) → Bool
  | [] => true
  | (k, v) :: rest => goodKey k && jsonGoodKeys v && fieldsGoodKeys rest

/-- Key check over array elements. -/
def listGoodKeys : List Json → Bool
  | [] => true
  | x :: rest => jsonGoodKeys x && listGoodKeys rest

end

/-- Concrete server entry used in witnesses and counterexamples. -/
def npxServer : McpServer :=
  { name := "npx", enabled := true, command := some "npx", args := [], env := [] }

/-- Server entry with an empty name (the invalid-document scenario of the
specification). -/
def unnamedServer : McpServer :=
  { name := "", enabled := true, command := some "npx", args := [], env := [] }

/-- Concrete skill entry used in witnesses and counterexamples. -/
def reviewSkill : Skill :=
  { name := "code-review", enabled := true, parameters := none }

/-- Document holding one npx server, used by round-trip and serialization
theorems. -/
def npxConfig : ClaudeConfig :=
  { emptyConfig with mcpServers := some [("npx", npxServer)] }

/-- Document whose single server has an empty name. -/
def invalidConfig : ClaudeConfig :=
  { emptyConfig with mcpServers := some [("", unnamedServer)] }

/-- Filesystem holding one file a.tmp with known old content; every
directory exists. -/
def fsTmpTarget : FS :=
  { files := fun q => if q = ["a.tmp"] then some "old" else none
    dirs := fun _ => true }

/-- Filesystem holding one file config.json with known old content; every
directory exists. -/
def fsJsonTarget : FS :=
  { files := fun q => if q = ["home", "config.json"] then some "old" else none
    dirs := fun _ => true }

/-- Oracle where every primitive succeeds. -/
def okOracle : Oracle :=
  { timestamp := "20250120_120000.000"
    backupDirCreateFails := false
    backupCopyFails := false
    serializeFails := false
    createDirFails := false
    tempCreateFails := false
    tempWriteFails := false
    tempWrittenBytes := 0
    tempFlushFails := false
    renameFails := false }

/-- Oracle where only the write into the temp file fails, after zero bytes
have been written. -/
def writeFailOracle : Oracle :=
  { okOracle with tempWriteFails := true }

/-- Oracle where only the backup copy fails. -/
def copyFailOracle : Oracle :=
  { okOracle with backupCopyFails := true }

/-- Restore oracle where every primitive succeeds. -/
def okRestoreOracle : RestoreOracle :=
  { mkdirFails := false, copyFails := false }

/-- Is an error outcome the BackupFailed kind. -/
def isBackupFailed : Option ConfigError → Bool
  | some (ConfigError.backupFailed _) => true
  | _ => false

/-- Concrete uvx server entry. -/
def uvxServer : McpServer :=
  { name := "uvx", enabled := true, command := some "uvx", args := [], env := [] }

/-- Base document of the merge scenario from the specification. -/
def mergeBase : ClaudeConfig :=
  { emptyConfig with
    mcpServers := some [("npx", npxServer)]
    allowedPaths := some ["~/base"] }

/-- Override document of the merge scenario from the specification. -/
def mergeOver : ClaudeConfig :=
  { emptyConfig with
    mcpServers := some [("uvx", uvxServer)]
    allowedPaths := some ["~/override"] }

/-- Search options with a depth limit of one. -/
def depthOpts : SearchOptions :=
  { defaultSearchOptions with maxDepth := some 1 }

/-- Sample nested document for the search-depth witness: the npx key sits
at depth one. -/
def sampleDoc : Json :=
  Json.obj [("mcpServers", Json.obj [("npx", Json.obj [("enabled", Json.bool true)])])]

/-- Nested diff records of one addition entry: the records of faEntryDiffs
past its head. -/
def faEntryTail (kp2 : String) : Json → List ConfigDiff
  | Json.obj nested => faDiffs [] kp2 nested
  | _ => []

/-- Global top-level object of the spec diff example. -/
def specGm : List (String × Json) := [("x", Json.num 1), ("y", Json.num 2)]

/-- Project top-level object of the spec diff example. -/
def specPm : List (String × Json) :=
  [("x", Json.num 1), ("y", Json.num 3), ("z", Json.num 4)]

/-- Global top-level object of the dotted-key diff counterexample. -/
def dotGm : List (String × Json) := [("z.a", Json.num 1)]

/-- Project top-level object of the dotted-key diff counterexample. -/
def dotPm : List (String × Json) :=
  [("z.a", Json.num 1), ("z", Json.obj [("a", Json.num 2)])]

/-- Filesystem for the restore scenarios: a backup directory holding a
backup with a regular timestamped name and one whose name carries no
underscore; every directory exists. -/
def restoreFs : FS :=
  { files := fun q =>
      if q = ["backups", "config.json"] then some "data"
      else if q = ["backups", "config_20250120_120000.000.json"] then some "data"
      else none
    dirs := fun _ => true }

/-- Fully populated valid document used by witnesses. -/
def fullConfig : ClaudeConfig :=
  { mcpServers := some [("npx", npxServer)]
    allowedPaths := some ["~/projects"]
    skills := some [("code-review", reviewSkill)]
    customInstructions := some ["Be concise"]
    unknown := [("futureFeature", Json.obj [("x", Json.num 1)])] }

theorem orElseO_none_right {V : Type} (a : Option V) : orElseO a none = a := by
  cases a <;> rfl

theorem orElseO_assoc {V : Type} (a b c : Option V) :
    orElseO (orElseO a b) c = orElseO a (orElseO b c) := by
  cases a <;> rfl

theorem keysAL_cons {V : Type} (k : String) (v : V) (tl : List (String × V)) :
    keysAL ((k, v) :: tl) = k :: keysAL tl := rfl

theorem mem_keysAL {V : Type} {m : List (String × V)} {k : String} :
    k ∈ keysAL m ↔ ∃ v, (k, v) ∈ m := by
  constructor
  · intro h
    rcases List.mem_map.mp h with ⟨⟨a, b⟩, hab, hfst⟩
    exact ⟨b, by simpa [← hfst] using hab⟩
  · rintro ⟨v, hv⟩
    exact List.mem_map.mpr ⟨(k, v), hv, rfl⟩

theorem lookupAL_insertAL {V : Type} (m : List (String × V)) (k : String) (v : V)
    (key : String) :
    lookupAL (insertAL m k v) key = if key = k then some v else lookupAL m key := by
  induction m with
  | nil => by_cases h : key = k <;> simp [insertAL, lookupAL, h]
  | cons hd tl ih =>
      obtain ⟨hk, hv⟩ := hd
      by_cases h1 : hk = k
      · subst h1
        by_cases h2 : key = hk <;> simp [insertAL, lookupAL, h2]
      · by_cases h2 : key = hk
        · have hnk : ¬ key = k := by rw [h2]; exact h1
          simp [insertAL, h1, lookupAL, h2, hnk]
        · simp [insertAL, h1, lookupAL, h2, ih]

theorem lookupAL_append {V : Type} (xs ys : List (String × V)) (key : String) :
    lookupAL (xs ++ ys) key = orElseO (lookupAL xs key) (lookupAL ys key) := by
  induction xs with
  | nil => simp [lookupAL, orElseO]
  | cons hd tl ih =>
      obtain ⟨hk, hv⟩ := hd
      by_cases h : key = hk <;> simp [lookupAL, h, orElseO, ih]

theorem lookupAL_eq_none_of_not_mem {V : Type} (m : List (String × V)) (key : String)
    (h : key ∉ keysAL m) : lookupAL m key = none := by
  induction m with
  | nil => rfl
  | cons hd tl ih =>
      obtain ⟨hk, hv⟩ := hd
      rw [keysAL_cons, List.mem_cons] at h
      push_neg at h
      simp [lookupAL, h.1, ih h.2]

theorem lookupAL_insertAll {V : Type} (base entries : List (String × V)) (key : String) :
    lookupAL (insertAll base entries) key =
      orElseO (lookupAL entries.reverse key) (lookupAL base key) := by
  induction entries generalizing base with
  | nil => simp [insertAll, lookupAL, orElseO]
  | cons hd tl ih =>
      obtain ⟨hk, hv⟩ := hd
      have step : insertAll base ((hk, hv) :: tl) = insertAll (insertAL base hk hv) tl := rfl
      rw [step, ih, List.reverse_cons, lookupAL_append, orElseO_assoc]
      congr 1
      rw [lookupAL_insertAL]
      by_cases h : key = hk <;> simp [lookupAL, h, orElseO]

theorem keysAL_reverse {V : Type} (m : List (String × V)) :
    keysAL m.reverse = (keysAL m).reverse := by
  simp [keysAL]

theorem lookupAL_reverse_of_nodup {V : Type} (m : List (String × V)) (key : String)
    (h : (keysAL m).Nodup) : lookupAL m.reverse key = lookupAL m key := by
  induction m with
  | nil => rfl
  | cons hd tl ih =>
      obtain ⟨hk, hv⟩ := hd
      rw [keysAL_cons, List.nodup_cons] at h
      rw [List.reverse_cons, lookupAL_append]
      by_cases hkey : key = hk
      · have hnone : lookupAL tl.reverse hk = none := by
          apply lookupAL_eq_none_of_not_mem
          rw [keysAL_reverse, List.mem_reverse]
          exact h.1
        simp [lookupAL, hkey, hnone, orElseO]
      · rw [ih h.2]
        simp [lookupAL, hkey, orElseO_none_right]

theorem insertAL_of_not_mem {V : Type} (m : List (String × V)) (k : String) (v : V)
    (h : k ∉ keysAL m) : insertAL m k v = m ++ [(k, v)] := by
  induction m with
  | nil => rfl
  | cons hd tl ih =>
      obtain ⟨hk, hv⟩ := hd
      rw [keysAL_cons, List.mem_cons] at h
      push_neg at h
      simp [insertAL, Ne.symm h.1, ih h.2]

theorem insertAll_of_disjoint {V : Type} (base entries : List (String × V))
    (hnd : (keysAL entries).Nodup)
    (hdisj : ∀ k ∈ keysAL entries, k ∉ keysAL base) :
    insertAll base entries = base ++ entries := by
  induction entries generalizing base with
  | nil => simp [insertAll]
  | cons hd tl ih =>
      obtain ⟨hk, hv⟩ := hd
      rw [keysAL_cons, List.nodup_cons] at hnd
      have hk_base : hk ∉ keysAL base := hdisj hk (by rw [keysAL_cons]; exact List.mem_cons_self _ _)
      have hdisj2 : ∀ k ∈ keysAL tl, k ∉ keysAL (base ++ [(hk, hv)]) := by
        intro k hks hkb
        have hkeys : keysAL (base ++ [(hk, hv)]) = keysAL base ++ [hk] := by
          simp [keysAL]
        rw [hkeys] at hkb
        rcases List.mem_append.mp hkb with hb | hb
        · exact hdisj k (by rw [keysAL_cons]; exact List.mem_cons_of_mem _ hks) hb
        · rw [List.mem_singleton] at hb
          rw [hb] at hks
          exact hnd.1 hks
      have step : insertAll base ((hk, hv) :: tl) = insertAll (insertAL base hk hv) tl := rfl
      rw [step, insertAL_of_not_mem base hk hv hk_base, ih (base ++ [(hk, hv)]) hnd.2 hdisj2]
      simp

theorem insertAll_nil_of_nodup {V : Type} (entries : List (String × V))
    (hnd : (keysAL entries).Nodup) : insertAll [] entries = entries := by
  have h := insertAll_of_disjoint [] entries hnd (by
    intro k _ hc
    simp [keysAL] at hc)
  simpa using h

theorem mergeConfigs_eq (b o : ClaudeConfig) :
    mergeConfigs b o =
      { mcpServers :=
          match o.mcpServers with
          | some os => some (insertAll (b.mcpServers.getD []) os)
          | none => b.mcpServers
        allowedPaths := if o.allowedPaths.isSome then o.allowedPaths else b.allowedPaths
        skills :=
          match o.skills with
          | some os => some (insertAll (b.skills.getD []) os)
          | none => b.skills
        customInstructions :=
          if o.customInstructions.isSome then o.customInstructions
          else b.customInstructions
        unknown := insertAll b.unknown o.unknown } := by
  unfold mergeConfigs
  cases o.mcpServers <;> cases o.skills <;>
    by_cases h1 : o.allowedPaths.isSome <;>
    by_cases h2 : o.customInstructions.isSome <;>
    simp [h1, h2]

theorem sectionLookup_getD {V : Type} (sec : Option (List (String × V))) (k : String) :
    sectionLookup sec k = lookupAL (sec.getD []) k := by
  cases sec <;> rfl

/-- C3: merge_configs merges the mcpServers and skills sections as a
key-union in which the entire override entry replaces the base entry on a
shared key, replaces the allowedPaths and customInstructions lists whenever
the override section is present (even when explicitly empty) and keeps the
base list otherwise, and merges unknown fields as a key-union where the
override wins on collision.  Key-duplicate freedom of the override sections
is the HashMap invariant of the Rust data model. -/
theorem merge_configs_spec (b o : ClaudeConfig)
    (hs : (keysOf o.mcpServers).Nodup)
    (hk : (keysOf o.skills).Nodup)
    (hu : (o.unknown.map Prod.fst).Nodup) :
    (∀ k, sectionLookup (mergeConfigs b o).mcpServers k =
        orElseO (sectionLookup o.mcpServers k) (sectionLookup b.mcpServers k))
    ∧ (∀ k, sectionLookup (mergeConfigs b o).skills k =
        orElseO (sectionLookup o.skills k) (sectionLookup b.skills k))
    ∧ (mergeConfigs b o).allowedPaths =
        (if o.allowedPaths.isSome then o.allowedPaths else b.allowedPaths)
    ∧ (mergeConfigs b o).customInstructions =
        (if o.customInstructions.isSome then o.customInstructions
         else b.customInstructions)
    ∧ (∀ k, lookupAL (mergeConfigs b o).unknown k =
        orElseO (lookupAL o.unknown k) (lookupAL b.unknown k)) := by
  have he := mergeConfigs_eq b o
  refine ⟨?_, ?_, ?_, ?_, ?_⟩
  · intro k
    rw [he]
    cases ho : o.mcpServers with
    | none => simp [sectionLookup, orElseO]
    | some os =>
        rw [ho] at hs
        simp only [keysOf, Option.getD_some] at hs
        simp only [sectionLookup_getD, Option.getD_some]
        rw [lookupAL_insertAll, lookupAL_reverse_of_nodup os k hs]
  · intro k
    rw [he]
    cases ho : o.skills with
    | none => simp [sectionLookup, orElseO]
    | some os =>
        rw [ho] at hk
        simp only [keysOf, Option.getD_some] at hk
        simp only [sectionLookup_getD, Option.getD_some]
        rw [lookupAL_insertAll, lookupAL_reverse_of_nodup os k hk]
  · rw [he]
  · rw [he]
  · intro k
    rw [he]
    have hu2 : (keysAL o.unknown).Nodup := hu
    simp only
    rw [lookupAL_insertAll, lookupAL_reverse_of_nodup o.unknown k hu2]

/-- Witness for C3 at the concrete merge scenario of the specification:
base holding the npx server and a base path, override holding the uvx
server and an override path. -/
theorem merge_configs_spec_witness :
    sectionLookup (mergeConfigs mergeBase mergeOver).mcpServers "npx" = some npxServer
    ∧ sectionLookup (mergeConfigs mergeBase mergeOver).mcpServers "uvx" = some uvxServer
    ∧ (mergeConfigs mergeBase mergeOver).allowedPaths = some ["~/override"] := by
  have h := merge_configs_spec mergeBase mergeOver (by decide) (by decide) (by decide)
  refine ⟨?_, ?_, ?_⟩
  · rw [h.1 "npx"]; rfl
  · rw [h.1 "uvx"]; rfl
  · rw [h.2.2.1]; rfl

/-- C10: the empty configuration is a two-sided identity of merge_configs;
the nodup hypotheses are the HashMap invariant of the Rust data model. -/
theorem merge_configs_identity (c : ClaudeConfig)
    (h1 : (keysOf c.mcpServers).Nodup)
    (h2 : (keysOf c.skills).Nodup)
    (h3 : (c.unknown.map Prod.fst).Nodup) :
    mergeConfigs emptyConfig c = c ∧ mergeConfigs c emptyConfig = c := by
  constructor
  · obtain ⟨cm, ca, cs, cc, cun⟩ := c
    rw [mergeConfigs_eq]
    simp only [keysOf] at h1 h2
    cases cm with
    | none =>
        cases cs with
        | none =>
            cases ca <;> cases cc <;>
              simp [emptyConfig, insertAll_nil_of_nodup _ h3]
        | some ss =>
            simp only [Option.getD_some] at h2
            cases ca <;> cases cc <;>
              simp [emptyConfig, insertAll_nil_of_nodup _ h2,
                insertAll_nil_of_nodup _ h3]
    | some ms =>
        simp only [Option.getD_some] at h1
        cases cs with
        | none =>
            cases ca <;> cases cc <;>
              simp [emptyConfig, insertAll_nil_of_nodup _ h1,
                insertAll_nil_of_nodup _ h3]
        | some ss =>
            simp only [Option.getD_some] at h2
            cases ca <;> cases cc <;>
              simp [emptyConfig, insertAll_nil_of_nodup _ h1,
                insertAll_nil_of_nodup _ h2, insertAll_nil_of_nodup _ h3]
  · rw [mergeConfigs_eq]
    simp [emptyConfig, insertAll]

/-- Witness for C10 at a configuration holding one npx server. -/
theorem merge_configs_identity_witness :
    mergeConfigs emptyConfig npxConfig = npxConfig
    ∧ mergeConfigs npxConfig emptyConfig = npxConfig :=
  merge_configs_identity npxConfig (by decide) (by decide) (by decide)

theorem checkNames_ok_iff (r d s : String) (ns : List String) :
    checkNames r d s ns = Except.ok () ↔ ∀ n ∈ ns, n ≠ "" := by
  induction ns with
  | nil => simp [checkNames]
  | cons hd tl ih =>
      by_cases h : hd = ""
      · simp [checkNames, h]
      · simp [checkNames, h, ih]

theorem checkNames_fail (r d s : String) (ns : List String)
    (h : ¬ ∀ n ∈ ns, n ≠ "") :
    checkNames r d s ns = Except.error (ConfigError.validationFailed r d s) := by
  induction ns with
  | nil => exact absurd (by simp) h
  | cons hd tl ih =>
      by_cases h1 : hd = ""
      · simp [checkNames, h1]
      · have h2 : ¬ ∀ n ∈ tl, n ≠ "" := by
          intro hall
          exact h (by
            intro n hn
            rcases List.mem_cons.mp hn with rfl | hmem
            · exact h1
            · exact hall n hmem)
        simp [checkNames, h1, ih h2]

theorem checkPaths_ok_iff (idx : Nat) (ps : List String) :
    checkPaths idx ps = Except.ok () ↔
      ∀ p ∈ ps, p ≠ "" ∧ nulChar ∉ p.toList := by
  induction ps generalizing idx with
  | nil => simp [checkPaths]
  | cons hd tl ih =>
      by_cases h1 : hd = ""
      · simp [checkPaths, h1]
      · by_cases h2 : nulChar ∈ hd.toList
        · simp only [checkPaths, if_neg h1, if_pos h2]
          constructor
          · intro hcontr
            exact absurd hcontr (by simp)
          · intro hall
            exact absurd h2 (hall hd (by simp)).2
        · simp only [checkPaths, if_neg h1, if_neg h2]
          rw [ih (idx + 1)]
          constructor
          · intro hall p hp
            rcases List.mem_cons.mp hp with rfl | hmem
            · exact ⟨h1, h2⟩
            · exact hall p hmem
          · intro hall p hp
            exact hall p (List.mem_cons_of_mem _ hp)

theorem checkPaths_fail (idx : Nat) (ps : List String)
    (h : ¬ ∀ p ∈ ps, p ≠ "" ∧ nulChar ∉ p.toList) :
    ∃ det sug, checkPaths idx ps = Except.error
        (ConfigError.validationFailed "AllowedPathsRule" det sug) ∧ sug ≠ "" := by
  induction ps generalizing idx with
  | nil => exact absurd (by simp) h
  | cons hd tl ih =>
      by_cases h1 : hd = ""
      · exact ⟨"Path at index " ++ toString idx ++ " is empty",
          "All allowed paths must be non-empty strings",
          by simp only [checkPaths, if_pos h1], by decide⟩
      · by_cases h2 : nulChar ∈ hd.toList
        · exact ⟨"Path " ++ hd ++ " contains null character",
            "Paths must be valid strings without null characters",
            by simp only [checkPaths, if_neg h1, if_pos h2], by decide⟩
        · have h3 : ¬ ∀ p ∈ tl, p ≠ "" ∧ nulChar ∉ p.toList := by
            intro hall
            exact h (by
              intro p hp
              rcases List.mem_cons.mp hp with rfl | hmem
              · exact ⟨h1, h2⟩
              · exact hall p hmem)
          rcases ih (idx + 1) h3 with ⟨det, sug, heq, hs⟩
          exact ⟨det, sug, by simp only [checkPaths, if_neg h1, if_neg h2]; exact heq, hs⟩

theorem mcpServersRule_ok_iff (c : ClaudeConfig) :
    mcpServersRule c = Except.ok () ↔ serverNamesOk c := by
  unfold mcpServersRule serverNamesOk keysOf
  cases hm : c.mcpServers with
  | none => simp [keysAL]
  | some s =>
      simp only [Option.getD_some]
      by_cases hemp : s.isEmpty
      · rw [List.isEmpty_iff] at hemp
        subst hemp
        simp [keysAL]
      · rw [if_neg hemp]
        exact checkNames_ok_iff _ _ _ _

theorem mcpServersRule_fail (c : ClaudeConfig) (h : ¬ serverNamesOk c) :
    mcpServersRule c = Except.error (ConfigError.validationFailed "McpServersRule"
      "Server name is empty" "All MCP servers must have a non-empty name") := by
  unfold serverNamesOk keysOf at h
  unfold mcpServersRule
  cases hm : c.mcpServers with
  | none => rw [hm] at h; simp [keysAL] at h
  | some s =>
      rw [hm] at h
      simp only [Option.getD_some] at h ⊢
      by_cases hemp : s.isEmpty
      · rw [List.isEmpty_iff] at hemp
        subst hemp
        simp [keysAL] at h
      · rw [if_neg hemp]
        exact checkNames_fail _ _ _ _ h

theorem allowedPathsRule_ok_iff (c : ClaudeConfig) :
    allowedPathsRule c = Except.ok () ↔ allowedPathsOk c := by
  unfold allowedPathsRule allowedPathsOk
  cases hm : c.allowedPaths with
  | none => simp
  | some p =>
      simp only [Option.getD_some]
      by_cases hemp : p.isEmpty
      · rw [List.isEmpty_iff] at hemp
        subst hemp
        simp
      · rw [if_neg hemp]
        exact checkPaths_ok_iff _ _

theorem allowedPathsRule_fail (c : ClaudeConfig) (h : ¬ allowedPathsOk c) :
    ∃ det sug, allowedPathsRule c = Except.error
        (ConfigError.validationFailed "AllowedPathsRule" det sug) ∧ sug ≠ "" := by
  unfold allowedPathsOk at h
  unfold allowedPathsRule
  cases hm : c.allowedPaths with
  | none => rw [hm] at h; simp at h
  | some p =>
      rw [hm] at h
      simp only [Option.getD_some] at h ⊢
      by_cases hemp : p.isEmpty
      · rw [List.isEmpty_iff] at hemp
        subst hemp
        simp at h
      · rw [if_neg hemp]
        exact checkPaths_fail 0 p h

theorem skillsRule_ok_iff (c : ClaudeConfig) :
    skillsRule c = Except.ok () ↔ skillNamesOk c := by
  unfold skillsRule skillNamesOk keysOf
  cases hm : c.skills with
  | none => simp [keysAL]
  | some s =>
      simp only [Option.getD_some]
      by_cases hemp : s.isEmpty
      · rw [List.isEmpty_iff] at hemp
        subst hemp
        simp [keysAL]
      · rw [if_neg hemp]
        exact checkNames_ok_iff _ _ _ _

theorem skillsRule_fail (c : ClaudeConfig) (h : ¬ skillNamesOk c) :
    skillsRule c = Except.error (ConfigError.validationFailed "SkillsRule"
      "Skill name is empty" "All skills must have a non-empty name") := by
  unfold skillNamesOk keysOf at h
  unfold skillsRule
  cases hm : c.skills with
  | none => rw [hm] at h; simp [keysAL] at h
  | some s =>
      rw [hm] at h
      simp only [Option.getD_some] at h ⊢
      by_cases hemp : s.isEmpty
      · rw [List.isEmpty_iff] at hemp
        subst hemp
        simp [keysAL] at h
      · rw [if_neg hemp]
        exact checkNames_fail _ _ _ _ h

theorem validateConfig_eq_bind (c : ClaudeConfig) :
    validateConfig c =
      match mcpServersRule c with
      | Except.error e => Except.error e
      | Except.ok _ =>
          match allowedPathsRule c with
          | Except.error e => Except.error e
          | Except.ok _ => skillsRule c := by
  unfold validateConfig
  cases mcpServersRule c <;> cases allowedPathsRule c <;> rfl

/-- C5 amended: validate_config succeeds iff every server name is
non-empty, every allowed path is non-empty and NUL-free, and every skill
name is non-empty; on failure it surfaces the first failing rule in the
fixed order servers, paths, skills as a single ValidationFailed error with
a non-empty suggestion and no aggregation.  The rule names carried are the
ones in the code, McpServersRule, AllowedPathsRule and SkillsRule, not the
ServerNameRule, PathEntryRule and SkillNameRule names the claim uses. -/
theorem validate_config_amended (c : ClaudeConfig) :
    (validateConfig c = Except.ok () ↔
      serverNamesOk c ∧ allowedPathsOk c ∧ skillNamesOk c)
    ∧ (¬ serverNamesOk c →
        validateConfig c = Except.error (ConfigError.validationFailed "McpServersRule"
          "Server name is empty" "All MCP servers must have a non-empty name"))
    ∧ (serverNamesOk c → ¬ allowedPathsOk c →
        ∃ det sug, validateConfig c = Except.error
          (ConfigError.validationFailed "AllowedPathsRule" det sug) ∧ sug ≠ "")
    ∧ (serverNamesOk c → allowedPathsOk c → ¬ skillNamesOk c →
        validateConfig c = Except.error (ConfigError.validationFailed "SkillsRule"
          "Skill name is empty" "All skills must have a non-empty name")) := by
  refine ⟨?_, ?_, ?_, ?_⟩
  · rw [validateConfig_eq_bind]
    constructor
    · intro h
      cases hm : mcpServersRule c with
      | error e => rw [hm] at h; exact absurd h (by simp)
      | ok u =>
          rw [hm] at h
          cases ha : allowedPathsRule c with
          | error e => rw [ha] at h; exact absurd h (by simp)
          | ok u2 =>
              rw [ha] at h
              exact ⟨(mcpServersRule_ok_iff c).mp hm,
                (allowedPathsRule_ok_iff c).mp ha, (skillsRule_ok_iff c).mp h⟩
    · rintro ⟨h1, h2, h3⟩
      rw [(mcpServersRule_ok_iff c).mpr h1, (allowedPathsRule_ok_iff c).mpr h2]
      exact (skillsRule_ok_iff c).mpr h3
  · intro h
    rw [validateConfig_eq_bind, mcpServersRule_fail c h]
  · intro h1 h2
    rcases allowedPathsRule_fail c h2 with ⟨det, sug, heq, hs⟩
    refine ⟨det, sug, ?_, hs⟩
    rw [validateConfig_eq_bind, (mcpServersRule_ok_iff c).mpr h1, heq]
  · intro h1 h2 h3
    rw [validateConfig_eq_bind, (mcpServersRule_ok_iff c).mpr h1,
      (allowedPathsRule_ok_iff c).mpr h2]
    exact skillsRule_fail c h3

/-- Witness for C5 amended: the fully populated valid document passes, and
the invalid document with an empty server name fails with the code rule
name. -/
theorem validate_config_amended_witness :
    validateConfig fullConfig = Except.ok ()
    ∧ validateConfig invalidConfig = Except.error
        (ConfigError.validationFailed "McpServersRule"
          "Server name is empty" "All MCP servers must have a non-empty name") := by
  constructor
  · exact (validate_config_amended fullConfig).1.mpr ⟨by decide, by decide, by decide⟩
  · exact (validate_config_amended invalidConfig).2.1 (by decide)

/-- Counterexample for C5: on a document whose single server has an empty
name the validation error carries the rule name McpServersRule, not the
ServerNameRule name stated in the claim. -/
theorem validate_config_rule_name_counterexample :
    ruleNameOf (validateConfig invalidConfig) = some "McpServersRule"
    ∧ "McpServersRule" ≠ "ServerNameRule" := by
  exact ⟨by rfl, by decide⟩

theorem asStringList_map (l : List String) :
    asStringList (l.map Json.str) = Except.ok l := by
  induction l with
  | nil => rfl
  | cons hd tl ih => simp [asStringList, ih, Bind.bind, Except.bind]

theorem asStringMap_map (l : List (String × String)) :
    asStringMap (l.map fun kv => (kv.1, Json.str kv.2)) = Except.ok l := by
  induction l with
  | nil => rfl
  | cons hd tl ih => simp [asStringMap, ih, Bind.bind, Except.bind]

theorem deserializeServer_roundtrip (s : McpServer) (henv : (keysAL s.env).Nodup) :
    deserializeServer (serializeServer s) = Except.ok { s with name := "" } := by
  obtain ⟨nm, en, cm, ar, ev⟩ := s
  simp only [keysAL] at henv
  cases cm with
  | none =>
      simp [serializeServer, deserializeServer, deserializeServerFields,
        asStringList_map, asStringMap_map, Bind.bind, Except.bind,
        insertAll_nil_of_nodup _ henv]
  | some cmd =>
      simp [serializeServer, deserializeServer, deserializeServerFields,
        asStringList_map, asStringMap_map, Bind.bind, Except.bind,
        insertAll_nil_of_nodup _ henv]

theorem deserializeSkill_roundtrip (sk : Skill) (hp : sk.parameters ≠ some Json.null) :
    deserializeSkill (serializeSkill sk) = Except.ok { sk with name := "" } := by
  obtain ⟨nm, en, pa⟩ := sk
  cases pa with
  | none =>
      simp [serializeSkill, deserializeSkill, deserializeSkillFields, Bind.bind, Except.bind]
  | some p =>
      cases p with
      | null => exact absurd rfl hp
      | bool b =>
          simp [serializeSkill, deserializeSkill, deserializeSkillFields, Bind.bind, Except.bind]
      | num n =>
          simp [serializeSkill, deserializeSkill, deserializeSkillFields, Bind.bind, Except.bind]
      | str s2 =>
          simp [serializeSkill, deserializeSkill, deserializeSkillFields, Bind.bind, Except.bind]
      | arr xs =>
          simp [serializeSkill, deserializeSkill, deserializeSkillFields, Bind.bind, Except.bind]
      | obj kvs =>
          simp [serializeSkill, deserializeSkill, deserializeSkillFields, Bind.bind, Except.bind]

theorem keysAL_map_val {A B : Type} (m : List (String × A)) (g : A → B) :
    keysAL (m.map fun kv => (kv.1, g kv.2)) = keysAL m := by
  simp [keysAL, List.map_map]

theorem deserializeSectionGo_spec {A B : Type} (dec : Json → Except String B)
    (ser : A → Json) (g : A → B) (m : List (String × A)) (acc : List (String × B))
    (hdec : ∀ kv ∈ m, dec (ser kv.2) = Except.ok (g kv.2)) :
    deserializeSectionGo dec (m.map fun kv => (kv.1, ser kv.2)) acc =
      Except.ok (insertAll acc (m.map fun kv => (kv.1, g kv.2))) := by
  induction m generalizing acc with
  | nil => rfl
  | cons hd tl ih =>
      obtain ⟨k, a⟩ := hd
      have hhd : dec (ser a) = Except.ok (g a) := hdec (k, a) (by simp)
      have htl : ∀ kv ∈ tl, dec (ser kv.2) = Except.ok (g kv.2) := by
        intro kv hkv
        exact hdec kv (List.mem_cons_of_mem _ hkv)
      simp [deserializeSectionGo, hhd, Bind.bind, Except.bind, ih _ htl, insertAll]

theorem deserializeSection_spec {A B : Type} (dec : Json → Except String B)
    (ser : A → Json) (g : A → B) (m : List (String × A))
    (hdec : ∀ kv ∈ m, dec (ser kv.2) = Except.ok (g kv.2))
    (hnd : (keysAL m).Nodup) :
    deserializeSection dec (m.map fun kv => (kv.1, ser kv.2)) =
      Except.ok (m.map fun kv => (kv.1, g kv.2)) := by
  unfold deserializeSection
  rw [deserializeSectionGo_spec dec ser g m [] hdec,
    insertAll_nil_of_nodup _ (by rw [keysAL_map_val]; exact hnd)]

theorem configFields_append (xs ys : List (String × Json)) (acc : ConfigAcc) :
    deserializeConfigFields (xs ++ ys) acc =
      (deserializeConfigFields xs acc).bind (fun a => deserializeConfigFields ys a) := by
  unfold deserializeConfigFields
  induction xs generalizing acc with
  | nil => simp [List.foldlM, Except.bind, pure, Except.pure]
  | cons hd tl ih =>
      simp only [List.cons_append, List.foldlM_cons]
      cases deserializeConfigStep acc hd with
      | error e => simp [Bind.bind, Except.bind]
      | ok a => simp [Bind.bind, Except.bind, ih]

theorem configFields_unknown (u : List (String × Json)) (acc : ConfigAcc)
    (hu : ∀ kv ∈ u, kv.1 ∉ knownKeys) :
    deserializeConfigFields u acc =
      Except.ok { acc with unknown := insertAll acc.unknown u } := by
  induction u generalizing acc with
  | nil => simp [deserializeConfigFields, List.foldlM, insertAll, pure, Except.pure]
  | cons hd tl ih =>
      have h1 : hd.1 ∉ knownKeys := hu hd (by simp)
      simp only [knownKeys, List.mem_cons, List.mem_singleton, not_or] at h1
      obtain ⟨hA, hB, hC, hD, _⟩ := h1
      have htl : ∀ kv ∈ tl, kv.1 ∉ knownKeys := by
        intro kv hkv
        exact hu kv (List.mem_cons_of_mem _ hkv)
      simp only [deserializeConfigFields, List.foldlM_cons] at ih ⊢
      rw [show deserializeConfigStep acc hd =
          Except.ok { acc with unknown := insertAL acc.unknown hd.1 hd.2 } by
        unfold deserializeConfigStep
        rw [if_neg hA, if_neg hB, if_neg hC, if_neg hD]]
      simp only [Bind.bind, Except.bind]
      rw [ih _ htl]
      rfl

theorem configStage_mcp (sec : Option (List (String × McpServer))) (acc : ConfigAcc)
    (hacc : acc.mcpServers = none)
    (hnd : (keysAL (sec.getD [])).Nodup)
    (henv : ∀ kv ∈ sec.getD [], (keysAL kv.2.env).Nodup) :
    deserializeConfigFields (serializeMcpSection sec) acc
      = Except.ok { acc with mcpServers := clearedServerSec sec } := by
  cases sec with
  | none =>
      obtain ⟨a1, a2, a3, a4, a5⟩ := acc
      simp only at hacc
      subst hacc
      simp [serializeMcpSection, serializePathsSection, serializeSkillsSection,
        serializeInstructionsSection, clearedServerSec, clearedSkillSec, seenOpt,
        deserializeConfigFields, List.foldlM, pure, Except.pure]
  | some m =>
      simp only [Option.getD_some] at hnd henv
      have hsec := deserializeSection_spec deserializeServer serializeServer
        (fun a => { a with name := "" }) m
        (fun kv hkv => deserializeServer_roundtrip kv.2 (henv kv hkv)) hnd
      simp only [serializeMcpSection, clearedServerSec,
        deserializeConfigFields, List.foldlM_cons, List.foldlM_nil]
      rw [show deserializeConfigStep acc
          ("mcpServers", Json.obj (m.map fun kv => (kv.1, serializeServer kv.2))) =
          Except.ok { acc with mcpServers := some (some (m.map fun kv => (kv.1, { kv.2 with name := "" }))) } by
        unfold deserializeConfigStep
        dsimp only
        rw [if_pos rfl, hacc, hsec]
        rfl]
      simp [Bind.bind, Except.bind, pure, Except.pure]

theorem configStage_paths (sec : Option (List String)) (acc : ConfigAcc)
    (hacc : acc.allowedPaths = none) :
    deserializeConfigFields (serializePathsSection sec) acc
      = Except.ok { acc with allowedPaths := seenOpt sec } := by
  cases sec with
  | none =>
      obtain ⟨a1, a2, a3, a4, a5⟩ := acc
      simp only at hacc
      subst hacc
      simp [serializeMcpSection, serializePathsSection, serializeSkillsSection,
        serializeInstructionsSection, clearedServerSec, clearedSkillSec, seenOpt,
        deserializeConfigFields, List.foldlM, pure, Except.pure]
  | some p =>
      simp only [serializePathsSection, seenOpt,
        deserializeConfigFields, List.foldlM_cons, List.foldlM_nil]
      rw [show deserializeConfigStep acc ("allowedPaths", Json.arr (p.map Json.str)) =
          Except.ok { acc with allowedPaths := some (some p) } by
        unfold deserializeConfigStep
        dsimp only
        rw [if_neg (by decide), if_pos rfl, hacc, asStringList_map]
        rfl]
      simp [Bind.bind, Except.bind, pure, Except.pure]

theorem configStage_skills (sec : Option (List (String × Skill))) (acc : ConfigAcc)
    (hacc : acc.skills = none)
    (hnd : (keysAL (sec.getD [])).Nodup)
    (hp : ∀ kv ∈ sec.getD [], kv.2.parameters ≠ some Json.null) :
    deserializeConfigFields (serializeSkillsSection sec) acc
      = Except.ok { acc with skills := clearedSkillSec sec } := by
  cases sec with
  | none =>
      obtain ⟨a1, a2, a3, a4, a5⟩ := acc
      simp only at hacc
      subst hacc
      simp [serializeMcpSection, serializePathsSection, serializeSkillsSection,
        serializeInstructionsSection, clearedServerSec, clearedSkillSec, seenOpt,
        deserializeConfigFields, List.foldlM, pure, Except.pure]
  | some m =>
      simp only [Option.getD_some] at hnd hp
      have hsec := deserializeSection_spec deserializeSkill serializeSkill
        (fun a => { a with name := "" }) m
        (fun kv hkv => deserializeSkill_roundtrip kv.2 (hp kv hkv)) hnd
      simp only [serializeSkillsSection, clearedSkillSec,
        deserializeConfigFields, List.foldlM_cons, List.foldlM_nil]
      rw [show deserializeConfigStep acc
          ("skills", Json.obj (m.map fun kv => (kv.1, serializeSkill kv.2))) =
          Except.ok { acc with skills := some (some (m.map fun kv => (kv.1, { kv.2 with name := "" }))) } by
        unfold deserializeConfigStep
        dsimp only
        rw [if_neg (by decide), if_neg (by decide), if_pos rfl, hacc, hsec]
        rfl]
      simp [Bind.bind, Except.bind, pure, Except.pure]

theorem configStage_instructions (sec : Option (List String)) (acc : ConfigAcc)
    (hacc : acc.customInstructions = none) :
    deserializeConfigFields (serializeInstructionsSection sec) acc
      = Except.ok { acc with customInstructions := seenOpt sec } := by
  cases sec with
  | none =>
      obtain ⟨a1, a2, a3, a4, a5⟩ := acc
      simp only at hacc
      subst hacc
      simp [serializeMcpSection, serializePathsSection, serializeSkillsSection,
        serializeInstructionsSection, clearedServerSec, clearedSkillSec, seenOpt,
        deserializeConfigFields, List.foldlM, pure, Except.pure]
  | some i =>
      simp only [serializeInstructionsSection, seenOpt,
        deserializeConfigFields, List.foldlM_cons, List.foldlM_nil]
      rw [show deserializeConfigStep acc ("customInstructions", Json.arr (i.map Json.str)) =
          Except.ok { acc with customInstructions := some (some i) } by
        unfold deserializeConfigStep
        dsimp only
        rw [if_neg (by decide), if_neg (by decide), if_neg (by decide), if_pos rfl, hacc, asStringList_map]
        rfl]
      simp [Bind.bind, Except.bind, pure, Except.pure]

/-- C4 amended: serialize-then-deserialize on a well-formed document yields
the document with every mcpServers and skills entry name field reset to the
empty string, because the name fields are serialized but skipped on
deserialization; the round trip preserves every other part of the document,
including arbitrary unknown top-level fields and nested skill parameters,
and equals the original document exactly when all name fields are empty. -/
theorem round_trip_amended (c : ClaudeConfig) (h : docWellFormed c) :
    deserializeConfig (serializeConfig c) = Except.ok (clearNames c) := by
  obtain ⟨h1, h2, h3, h4, h5, h6⟩ := h
  unfold deserializeConfig serializeConfig
  rw [configFields_append, configFields_append, configFields_append, configFields_append]
  rw [configStage_mcp c.mcpServers _ rfl h1 h4]
  simp only [Except.bind]
  rw [configStage_paths c.allowedPaths _ rfl]
  simp only [Except.bind]
  rw [configStage_skills c.skills _ rfl h2 h6]
  simp only [Except.bind]
  rw [configStage_instructions c.customInstructions _ rfl]
  simp only [Except.bind]
  rw [configFields_unknown c.unknown _ h5]
  simp only [Bind.bind, Except.bind]
  rw [insertAll_nil_of_nodup _ h3]
  unfold clearNames
  obtain ⟨cm, ca, cs, cc, cu⟩ := c
  cases cm <;> cases ca <;> cases cs <;> cases cc <;> rfl

/-- Witness for C4 amended at the fully populated document. -/
theorem round_trip_amended_witness :
    deserializeConfig (serializeConfig fullConfig) = Except.ok (clearNames fullConfig) :=
  round_trip_amended fullConfig (by decide)

/-- Counterexample for C4: a document with one server whose name field is
the non-empty string npx does not round trip to itself, because the name
field comes back empty. -/
theorem round_trip_counterexample :
    deserializeConfig (serializeConfig npxConfig) = Except.ok (clearNames npxConfig)
    ∧ clearNames npxConfig ≠ npxConfig := by
  exact ⟨rfl, by decide⟩

/-- C7: the serialized JSON of an mcpServers entry and of a skills entry
DOES contain a name key, contradicting both the claim and the code comment
on the name field (types.rs: not serialized in JSON), because the field
carries only serde(skip_deserializing) and not skip_serializing. -/
theorem serialized_entry_contains_name_field :
    objKeys (serializeServer npxServer) = ["name", "enabled", "command", "args", "env"]
    ∧ "name" ∈ objKeys (serializeServer npxServer)
    ∧ objKeys (serializeSkill reviewSkill) = ["name", "enabled"]
    ∧ "name" ∈ objKeys (serializeSkill reviewSkill) := by
  decide

/-- C8 amended: restore_backup fails with NotFound when the backup path
does not exist; otherwise it derives the original stem as the portion of
the backup file stem before the first underscore (the whole stem when
there is none), copies the backup bytes over parent-of-backup-directory
slash stem dot extension, creating the missing parent directory and
overwriting, and returns that path.  In particular a filename without the
underscore-timestamp shape does NOT fail: no InvalidBackupName error kind
exists in the code. -/
theorem restore_backup_amended (backupDir : List String) (o : RestoreOracle)
    (fs : FS) (bp : List String) :
    (fs.files bp = none →
      restoreBackup backupDir o fs bp = (Except.error (ConfigError.notFound bp), fs))
    ∧ (∀ c comp, fs.files bp = some c → bp.getLast? = some comp → comp ≠ "" →
        o.mkdirFails = false → o.copyFails = false →
        restoreBackup backupDir o fs bp =
          (Except.ok (restoreDest backupDir comp),
            setFile
              (if fs.dirs (parentD backupDir) then fs
               else addDir fs (parentD backupDir))
              (restoreDest backupDir comp) (some c))) := by
  constructor
  · intro h
    unfold restoreBackup
    rw [h]
    rfl
  · intro c comp hc hlast hcomp hm hcopy
    unfold restoreBackup
    rw [hc, hlast]
    have hpar : (restoreDest backupDir comp).dropLast = parentD backupDir := by
      unfold restoreDest
      exact List.dropLast_concat
    simp only [Option.isNone_some, Bool.false_eq_true, if_false, if_neg hcomp, hpar]
    by_cases hd : fs.dirs (parentD backupDir)
    · simp only [hd, if_pos, if_true, hcopy, Bool.false_eq_true, if_false]
      rw [hc]
    · simp only [hd, Bool.false_eq_true, if_false, hm, hcopy]
      rw [show (addDir fs (parentD backupDir)).files = fs.files from rfl, hc]

/-- Witness for C8 amended, restoring a regular timestamped backup of
config.json from the backup directory to its parent. -/
theorem restore_backup_amended_witness :
    restoreBackup ["backups"] okRestoreOracle restoreFs
        ["backups", "config_20250120_120000.000.json"] =
      (Except.ok ["config.json"],
        setFile restoreFs ["config.json"] (some "data")) := by
  have h := (restore_backup_amended ["backups"] okRestoreOracle restoreFs
    ["backups", "config_20250120_120000.000.json"]).2
    "data" "config_20250120_120000.000.json" rfl rfl (by decide) rfl rfl
  rw [h]
  rfl

/-- Counterexample for C8: restoring a backup whose filename config.json
has no underscore — thus violating the stem-underscore-timestamp shape —
succeeds and copies the file to the parent directory, where the claim
demands an InvalidBackupName failure. -/
theorem restore_backup_no_underscore_counterexample :
    (restoreBackup ["backups"] okRestoreOracle restoreFs
        ["backups", "config.json"]).1 = Except.ok ["config.json"]
    ∧ (restoreBackup ["backups"] okRestoreOracle restoreFs
        ["backups", "config.json"]).2.files ["config.json"] = some "data" := by
  exact ⟨rfl, rfl⟩

theorem createBackup_files_path (backupDir : List String) (o : Oracle) (fs : FS)
    (p : List String) :
    (createBackup backupDir o fs p).2.files p = fs.files p := by
  unfold createBackup
  by_cases h0 : (fs.files p).isNone
  · simp [h0]
  · simp only [h0, Bool.false_eq_true, if_false]
    by_cases hd : fs.dirs backupDir
    · simp only [hd, if_true]
      by_cases hcp : o.backupCopyFails
      · simp [hcp]
      · simp only [hcp, Bool.false_eq_true, if_false, setFile]
        split <;> rfl
    · by_cases hdc : o.backupDirCreateFails
      · simp [hd, hdc]
      · simp only [hd, hdc, Bool.false_eq_true, if_false]
        by_cases hcp : o.backupCopyFails
        · simp [hcp, addDir]
        · simp only [hcp, Bool.false_eq_true, if_false, setFile, addDir]
          split <;> rfl

theorem atomicWrite_spec (o : Oracle) (fs : FS) (t : List String) (content : String)
    (htemp : tempPath t ≠ t) :
    ((atomicWrite o fs t content).1.isSome →
      (atomicWrite o fs t content).2.files t = fs.files t)
    ∧ ((atomicWrite o fs t content).1 = none →
      (atomicWrite o fs t content).2.files t = some content) := by
  have htp : ¬ t = tempPath t := fun h => htemp h.symm
  unfold atomicWrite
  by_cases hd : fs.dirs t.dropLast
  · simp only [hd, if_true]
    by_cases htc : o.tempCreateFails
    · simp [htc]
    · by_cases htw : o.tempWriteFails
      · simp [htc, htw, setFile, htp]
      · by_cases htf : o.tempFlushFails
        · simp [htc, htw, htf, setFile, htp]
        · by_cases hrn : o.renameFails
          · simp [htc, htw, htf, hrn, setFile, htp]
          · simp [htc, htw, htf, hrn, renameFile, setFile]
  · by_cases hcd : o.createDirFails
    · simp [hd, hcd]
    · simp only [hd, hcd, Bool.false_eq_true, if_false]
      by_cases htc : o.tempCreateFails
      · simp [htc, addDir]
      · by_cases htw : o.tempWriteFails
        · simp [htc, htw, setFile, addDir, htp]
        · by_cases htf : o.tempFlushFails
          · simp [htc, htw, htf, setFile, addDir, htp]
          · by_cases hrn : o.renameFails
            · simp [htc, htw, htf, hrn, setFile, addDir, htp]
            · simp [htc, htw, htf, hrn, renameFile, setFile, addDir]

/-- C1 amended: on a target that exists and whose derived temp path (the
target with its extension replaced by tmp) differs from the target itself,
any error return of write_config_with_backup — backup, validation,
serialization, temp-file, flush or rename failure — leaves the byte content
of the target unchanged, and a successful return changes it exactly at the
final rename to the serialized document; the rename is the only step that
mutates the target. -/
theorem write_with_backup_atomic (backupDir : List String) (o : Oracle) (fs : FS)
    (path : List String) (cfg : ClaudeConfig) (c : String)
    (htemp : tempPath path ≠ path)
    (hex : fs.files path = some c) :
    ((writeConfigWithBackup backupDir o fs path cfg).1.isSome →
      (writeConfigWithBackup backupDir o fs path cfg).2.files path = some c)
    ∧ ((writeConfigWithBackup backupDir o fs path cfg).1 = none →
      (writeConfigWithBackup backupDir o fs path cfg).2.files path =
        some (renderConfig cfg)) := by
  unfold writeConfigWithBackup
  rw [if_pos (by rw [hex]; rfl)]
  rcases hcb : createBackup backupDir o fs path with ⟨e1, fs1⟩
  have hfs1 : fs1.files path = some c := by
    have hh := createBackup_files_path backupDir o fs path
    rw [hcb] at hh
    rw [show fs1.files path = (e1, fs1).2.files path from rfl, hh, hex]
  cases e1 with
  | some e => simp [hfs1]
  | none =>
      cases hv : validateConfig cfg with
      | error e => simp [hfs1]
      | ok u =>
          by_cases hsf : o.serializeFails
          · simp [hsf, hfs1]
          · simp only [hsf, Bool.false_eq_true, if_false]
            have hs := atomicWrite_spec o fs1 path (renderConfig cfg) htemp
            exact ⟨fun h => (hs.1 h).trans hfs1, hs.2⟩

/-- Witness for C1 amended: a failing backup copy aborts the write of a
valid document and leaves the existing target bytes untouched. -/
theorem write_with_backup_atomic_witness :
    (writeConfigWithBackup ["backups"] copyFailOracle fsJsonTarget
        ["home", "config.json"] fullConfig).2.files ["home", "config.json"]
      = some "old" := by
  have h := write_with_backup_atomic ["backups"] copyFailOracle fsJsonTarget
    ["home", "config.json"] fullConfig "old" (by decide) rfl
  exact h.1 (by rfl)

/-- Counterexample for C1: on the target a.tmp, whose derived temp path
equals the target itself, a failed write to the temp file truncates the
pre-existing target even though the operation returns an error — the claim
that an erroring write leaves the target bytes unchanged is false there. -/
theorem write_tmp_target_counterexample :
    (writeConfigWithBackup ["backups"] writeFailOracle fsTmpTarget
        ["a.tmp"] emptyConfig).1.isSome = true
    ∧ (writeConfigWithBackup ["backups"] writeFailOracle fsTmpTarget
        ["a.tmp"] emptyConfig).2.files ["a.tmp"] = some ""
    ∧ fsTmpTarget.files ["a.tmp"] = some "old"
    ∧ tempPath ["a.tmp"] = ["a.tmp"] := by
  exact ⟨rfl, rfl, rfl, rfl⟩

/-- C2 amended: when the target exists, the backup step runs before
validation and before any write: if backup creation fails — the directory
cannot be created or the copy fails — the operation aborts with that
Filesystem error (the BackupFailed kind is never produced), no file
changes, and this happens even for invalid documents; if the backup
succeeds and validation then fails, the validation error is returned with
the safety copy of the old target bytes already on disk and the target
untouched. -/
theorem write_backup_first (backupDir : List String) (o : Oracle) (fs : FS)
    (path : List String) (cfg : ClaudeConfig) (c : String)
    (hex : fs.files path = some c) :
    (((¬ fs.dirs backupDir ∧ o.backupDirCreateFails) ∨ o.backupCopyFails) →
      (∃ op p2, (writeConfigWithBackup backupDir o fs path cfg).1 =
          some (ConfigError.filesystem op p2))
      ∧ (writeConfigWithBackup backupDir o fs path cfg).2.files = fs.files)
    ∧ ((fs.dirs backupDir ∨ ¬ o.backupDirCreateFails) → ¬ o.backupCopyFails →
        ∀ e, validateConfig cfg = Except.error e →
        (writeConfigWithBackup backupDir o fs path cfg).1 = some e
        ∧ (writeConfigWithBackup backupDir o fs path cfg).2.files
            (backupPath backupDir o path) = some c
        ∧ (writeConfigWithBackup backupDir o fs path cfg).2.files path = some c) := by
  unfold writeConfigWithBackup createBackup
  rw [if_pos (by rw [hex]; rfl), show (fs.files path).isNone = false by rw [hex]; rfl]
  simp only [Bool.false_eq_true, if_false]
  constructor
  · intro hfail
    by_cases hd : fs.dirs backupDir
    · have hcp : o.backupCopyFails = true := by
        rcases hfail with ⟨h1, _⟩ | h2
        · exact absurd hd h1
        · exact h2
      simp [hd, hcp]
    · by_cases hdc : o.backupDirCreateFails
      · simp [hd, hdc]
      · have hcp : o.backupCopyFails = true := by
          rcases hfail with ⟨_, h2⟩ | h2
          · exact absurd h2 hdc
          · exact h2
        simp [hd, hdc, hcp, addDir]
  · intro hdir hcp e hv
    have hcp2 : o.backupCopyFails = false := by
      cases hb : o.backupCopyFails
      · rfl
      · exact absurd hb hcp
    by_cases hd : fs.dirs backupDir
    · simp only [hd, if_true, hcp2, Bool.false_eq_true, if_false, hv]
      refine ⟨trivial, ?_, ?_⟩
      · simp [setFile, hex]
      · simp only [setFile]
        split
        · rw [hex]
        · rw [hex]
    · have hdc : o.backupDirCreateFails = false := by
        rcases hdir with h1 | h2
        · exact absurd h1 hd
        · cases hb : o.backupDirCreateFails
          · rfl
          · exact absurd hb h2
      simp only [hd, Bool.false_eq_true, if_false, hdc, hcp2, hv]
      refine ⟨trivial, ?_, ?_⟩
      · simp [setFile, addDir, hex]
      · simp only [setFile, addDir]
        split
        · rw [hex]
        · rw [hex]

/-- Witness for C2 amended: with a failing backup copy even an invalid
document aborts with the filesystem error of the copy (backup precedes
validation), and with a succeeding backup an invalid document fails
validation with the safety copy already written. -/
theorem write_backup_first_witness :
    (∃ op p2, (writeConfigWithBackup ["backups"] copyFailOracle fsJsonTarget
        ["home", "config.json"] invalidConfig).1 =
          some (ConfigError.filesystem op p2))
    ∧ (writeConfigWithBackup ["backups"] okOracle fsJsonTarget
        ["home", "config.json"] invalidConfig).2.files
          (backupPath ["backups"] okOracle ["home", "config.json"]) = some "old" := by
  have h1 := (write_backup_first ["backups"] copyFailOracle fsJsonTarget
    ["home", "config.json"] invalidConfig "old" rfl).1 (Or.inr rfl)
  have h2 := (write_backup_first ["backups"] okOracle fsJsonTarget
    ["home", "config.json"] invalidConfig "old" rfl).2 (Or.inr (by decide)) (by decide)
    (ConfigError.validationFailed "McpServersRule" "Server name is empty"
      "All MCP servers must have a non-empty name") rfl
  exact ⟨h1.1, h2.2.1⟩

/-- Counterexample for C2: a failing backup copy aborts the operation with
the Filesystem error kind, not the BackupFailed kind the claim names. -/
theorem write_backup_error_kind_counterexample :
    (writeConfigWithBackup ["backups"] copyFailOracle fsJsonTarget
        ["home", "config.json"] fullConfig).1 =
      some (ConfigError.filesystem "copy file to backup" ["home", "config.json"])
    ∧ isBackupFailed (writeConfigWithBackup ["backups"] copyFailOracle fsJsonTarget
        ["home", "config.json"] fullConfig).1 = false := by
  exact ⟨rfl, rfl⟩

theorem Json.myInduction (P : Json → Prop)
    (hnull : P Json.null) (hbool : ∀ b, P (Json.bool b))
    (hnum : ∀ n, P (Json.num n)) (hstr : ∀ s, P (Json.str s))
    (harr : ∀ xs, (∀ x ∈ xs, P x) → P (Json.arr xs))
    (hobj : ∀ kvs, (∀ kv ∈ kvs, P kv.2) → P (Json.obj kvs)) : ∀ j, P j := by
  have H : ∀ n j, sizeOf j ≤ n → P j := by
    intro n
    induction n with
    | zero =>
        intro j hj
        cases j <;> simp at hj
    | succ n ih =>
        intro j hj
        cases j with
        | null => exact hnull
        | bool b => exact hbool b
        | num k => exact hnum k
        | str s => exact hstr s
        | arr xs =>
            refine harr xs (fun x hx => ih x ?_)
            have h1 : sizeOf x < sizeOf xs := List.sizeOf_lt_of_mem hx
            have h2 : sizeOf (Json.arr xs) = 1 + sizeOf xs := by simp
            omega
        | obj kvs =>
            refine hobj kvs (fun kv hkv => ih kv.2 ?_)
            have h1 : sizeOf kv < sizeOf kvs := List.sizeOf_lt_of_mem hkv
            have h2 : sizeOf kv.2 < sizeOf kv := by
              obtain ⟨a, b⟩ := kv
              simp
            have h3 : sizeOf (Json.obj kvs) = 1 + sizeOf kvs := by simp
            omega
  intro j
  exact H (sizeOf j) j le_rfl

theorem searchValue_truncate (opts : SearchOptions) (query : String) (m : Nat)
    (hm : opts.maxDepth = some m) (v : Json) :
    ∀ (path : String) (src : ConfigScope) (cfgPath : List String) (d : Nat),
      searchValue opts query v path src cfgPath d =
        searchNoLimit opts query (truncateJson (m + 1 - d) v) path src cfgPath d := by
  induction v using Json.myInduction with
  | hnull =>
      intro path src cfgPath d
      by_cases hd : d > m
      · rw [show m + 1 - d = 0 from by omega]
        simp [searchValue, searchNoLimit, depthExceeded, hm, hd, truncateJson]
      · rw [show m + 1 - d = (m - d) + 1 from by omega]
        simp [searchValue, searchNoLimit, depthExceeded, hm, hd, truncateJson]
  | hbool b =>
      intro path src cfgPath d
      by_cases hd : d > m
      · rw [show m + 1 - d = 0 from by omega]
        simp [searchValue, searchNoLimit, depthExceeded, hm, hd, truncateJson]
      · rw [show m + 1 - d = (m - d) + 1 from by omega]
        simp [searchValue, searchNoLimit, depthExceeded, hm, hd, truncateJson]
  | hnum n =>
      intro path src cfgPath d
      by_cases hd : d > m
      · rw [show m + 1 - d = 0 from by omega]
        simp [searchValue, searchNoLimit, depthExceeded, hm, hd, truncateJson]
      · rw [show m + 1 - d = (m - d) + 1 from by omega]
        simp [searchValue, searchNoLimit, depthExceeded, hm, hd, truncateJson]
  | hstr s =>
      intro path src cfgPath d
      by_cases hd : d > m
      · rw [show m + 1 - d = 0 from by omega]
        simp [searchValue, searchNoLimit, depthExceeded, hm, hd, truncateJson]
      · rw [show m + 1 - d = (m - d) + 1 from by omega]
        simp [searchValue, searchNoLimit, depthExceeded, hm, hd, truncateJson]
  | harr xs ih =>
      intro path src cfgPath d
      by_cases hd : d > m
      · rw [show m + 1 - d = 0 from by omega]
        simp [searchValue, searchNoLimit, depthExceeded, hm, hd, truncateJson]
      · rw [show m + 1 - d = (m - d) + 1 from by omega]
        have hg : depthExceeded opts d = false := by
          simp [depthExceeded, hm, hd]
        simp only [searchValue, searchNoLimit, hg, Bool.false_eq_true, if_false,
          truncateJson]
        have key : ∀ (ys : List Json),
            (∀ x ∈ ys, ∀ p2 s2 c2 d2, searchValue opts query x p2 s2 c2 d2 =
              searchNoLimit opts query (truncateJson (m + 1 - d2) x) p2 s2 c2 d2) →
            ∀ index, searchArrEntries opts query ys index path src cfgPath d =
              searchNoLimitArr opts query (truncateList (m - d) ys) index path src cfgPath d := by
          intro ys hys
          induction ys with
          | nil => intro index; rfl
          | cons y yt ihy =>
              intro index
              simp only [searchArrEntries, truncateList, searchNoLimitArr]
              rw [hys y (by simp) _ _ _ (d + 1),
                show m + 1 - (d + 1) = m - d from by omega,
                ihy (fun x hx p2 s2 c2 d2 => hys x (List.mem_cons_of_mem _ hx) p2 s2 c2 d2)]
        exact key xs ih 0
  | hobj kvs ih =>
      intro path src cfgPath d
      by_cases hd : d > m
      · rw [show m + 1 - d = 0 from by omega]
        simp [searchValue, searchNoLimit, depthExceeded, hm, hd, truncateJson]
      · rw [show m + 1 - d = (m - d) + 1 from by omega]
        have hg : depthExceeded opts d = false := by
          simp [depthExceeded, hm, hd]
        simp only [searchValue, searchNoLimit, hg, Bool.false_eq_true, if_false,
          truncateJson]
        have key : ∀ (ys : List (String × Json)),
            (∀ kv ∈ ys, ∀ p2 s2 c2 d2, searchValue opts query kv.2 p2 s2 c2 d2 =
              searchNoLimit opts query (truncateJson (m + 1 - d2) kv.2) p2 s2 c2 d2) →
            searchObjEntries opts query ys path src cfgPath d =
              searchNoLimitObj opts query (truncateFields (m - d) ys) path src cfgPath d := by
          intro ys hys
          induction ys with
          | nil => rfl
          | cons y yt ihy =>
              obtain ⟨k, val⟩ := y
              simp only [searchObjEntries, truncateFields, searchNoLimitObj]
              rw [hys (k, val) (by simp) _ _ _ (d + 1),
                show m + 1 - (d + 1) = m - d from by omega,
                ihy (fun kv hkv p2 s2 c2 d2 => hys kv (List.mem_cons_of_mem _ hkv) p2 s2 c2 d2)]
        exact key kvs ih

theorem searchValue_noLimitEq (opts : SearchOptions) (query : String)
    (hm : opts.maxDepth = none) (v : Json) :
    ∀ (path : String) (src : ConfigScope) (cfgPath : List String) (d : Nat),
      searchValue opts query v path src cfgPath d =
        searchNoLimit opts query v path src cfgPath d := by
  have hg : ∀ d, depthExceeded opts d = false := by
    intro d
    simp [depthExceeded, hm]
  induction v using Json.myInduction with
  | hnull => intro path src cfgPath d; simp [searchValue, searchNoLimit, hg]
  | hbool b => intro path src cfgPath d; simp [searchValue, searchNoLimit, hg]
  | hnum n => intro path src cfgPath d; simp [searchValue, searchNoLimit, hg]
  | hstr s => intro path src cfgPath d; simp [searchValue, searchNoLimit, hg]
  | harr xs ih =>
      intro path src cfgPath d
      simp only [searchValue, searchNoLimit, hg, Bool.false_eq_true, if_false]
      have key : ∀ (ys : List Json),
          (∀ x ∈ ys, ∀ p2 s2 c2 d2, searchValue opts query x p2 s2 c2 d2 =
            searchNoLimit opts query x p2 s2 c2 d2) →
          ∀ index, searchArrEntries opts query ys index path src cfgPath d =
            searchNoLimitArr opts query ys index path src cfgPath d := by
        intro ys hys
        induction ys with
        | nil => intro index; rfl
        | cons y yt ihy =>
            intro index
            simp only [searchArrEntries, searchNoLimitArr]
            rw [hys y (by simp),
              ihy (fun x hx p2 s2 c2 d2 => hys x (List.mem_cons_of_mem _ hx) p2 s2 c2 d2)]
      exact key xs ih 0
  | hobj kvs ih =>
      intro path src cfgPath d
      simp only [searchValue, searchNoLimit, hg, Bool.false_eq_true, if_false]
      have key : ∀ (ys : List (String × Json)),
          (∀ kv ∈ ys, ∀ p2 s2 c2 d2, searchValue opts query kv.2 p2 s2 c2 d2 =
            searchNoLimit opts query kv.2 p2 s2 c2 d2) →
          searchObjEntries opts query ys path src cfgPath d =
            searchNoLimitObj opts query ys path src cfgPath d := by
        intro ys hys
        induction ys with
        | nil => rfl
        | cons y yt ihy =>
            obtain ⟨k, val⟩ := y
            simp only [searchObjEntries, searchNoLimitObj]
            rw [hys (k, val) (by simp),
              ihy (fun kv hkv p2 s2 c2 d2 => hys kv (List.mem_cons_of_mem _ hkv) p2 s2 c2 d2)]
      exact key kvs ih

/-- C9: with maxDepth set to m, searching a value at depth d behaves
exactly like the unlimited reference search on the tree truncated to keep
the nodes of depth at most m: a node at depth m survives truncation, so it
is still matched and recursed into, while everything strictly deeper
becomes null and is neither matched nor descended into; with maxDepth
unset, the search IS the unlimited search. -/
theorem search_depth_boundary (opts : SearchOptions) (query : String) (v : Json)
    (path : String) (src : ConfigScope) (cfgPath : List String) (d m : Nat) :
    (opts.maxDepth = some m →
      searchValue opts query v path src cfgPath d =
        searchNoLimit opts query (truncateJson (m + 1 - d) v) path src cfgPath d)
    ∧ (opts.maxDepth = none →
      searchValue opts query v path src cfgPath d =
        searchNoLimit opts query v path src cfgPath d) := by
  constructor
  · intro hm
    exact searchValue_truncate opts query m hm v path src cfgPath d
  · intro hm
    exact searchValue_noLimitEq opts query hm v path src cfgPath d

theorem goodKey_ne_empty {s : String} (h : goodKey s = true) : s ≠ "" := by
  unfold goodKey at h
  rw [Bool.and_eq_true, bne_iff_ne] at h
  exact h.1

theorem goodKey_no_dot {s : String} (h : goodKey s = true) :
    s.toList.contains '.' = false := by
  unfold goodKey at h
  rw [Bool.and_eq_true] at h
  have h2 := h.2
  cases hc : s.toList.contains '.'
  · rfl
  · rw [hc] at h2
    exact absurd h2 (by decide)

theorem goodKey_false_of_dot {s : String} (h : s.toList.contains '.' = true) :
    goodKey s = false := by
  unfold goodKey
  rw [h]
  simp

theorem joinPath_has_dot (kp k : String) (h : kp ≠ "") :
    (joinPath kp k).toList.contains '.' = true := by
  unfold joinPath
  rw [if_neg h]
  have hmem : ('.' : Char) ∈ (kp ++ "." ++ k).toList := by
    show ('.' : Char) ∈ (kp ++ "." ++ k).data
    rw [String.data_append]
    apply List.mem_append_left
    rw [String.data_append]
    apply List.mem_append_right
    decide
  exact List.elem_eq_true_of_mem hmem

theorem ne_empty_of_contains_dot {s : String} (h : s.toList.contains '.' = true) :
    s ≠ "" := by
  intro he
  rw [he] at h
  exact absurd h (by decide)

theorem compareValuesObjGo_acc (pm : List (String × Json)) (kp : String)
    (gs : ConfigScope) (gm : List (String × Json)) (d : List ConfigDiff)
    (s : List (String × ConfigScope)) :
    compareValuesObjGo pm kp gs gm (d, s) =
      (d ++ cvDiffs pm kp gm, insertAll s (cvSM pm kp gs gm)) := by
  induction gm generalizing d s with
  | nil => simp [compareValuesObjGo, cvDiffs, cvSM, insertAll]
  | cons hd rest ih =>
      obtain ⟨k, gv⟩ := hd
      simp only [compareValuesObjGo, cvDiffs, cvSM]
      cases hl : lookupAL pm k with
      | some pv =>
          by_cases hne : gv = pv
          · simp [hl, hne, ih, insertAll]
          · simp [hl, hne, ih, insertAll]
      | none => simp [hl, ih, insertAll]

theorem fa_acc_strong : ∀ n : Nat,
    (∀ pm : List (String × Json), sizeOf pm ≤ n → ∀ gm kp ps d s,
      findAdditionsGo gm kp ps pm (d, s) =
        (d ++ faDiffs gm kp pm, insertAll s (faSM gm kp ps pm)))
    ∧ (∀ pv : Json, sizeOf pv ≤ n → ∀ kp ps k d s,
      findAddedEntry kp ps k pv (d, s) =
        (d ++ faEntryDiffs kp k pv, insertAll s (faEntrySM kp ps k pv))) := by
  intro n
  induction n with
  | zero =>
      constructor
      · intro pm h
        cases pm <;> simp at h
      · intro pv h
        cases pv <;> simp at h
  | succ n ih =>
      constructor
      · intro pm hpm gm kp ps d s
        cases pm with
        | nil => simp [findAdditionsGo, faDiffs, faSM, insertAll]
        | cons hd rest =>
            obtain ⟨k, pv⟩ := hd
            have hsz : sizeOf rest ≤ n ∧ sizeOf pv ≤ n := by
              simp at hpm
              omega
            simp only [findAdditionsGo, faDiffs, faSM]
            by_cases hl : (lookupAL gm k).isSome
            · simp only [hl, if_true]
              rw [(ih.1) rest hsz.1]
              simp [insertAll]
            · simp only [hl, Bool.false_eq_true, if_false]
              rw [(ih.2) pv hsz.2, (ih.1) rest hsz.1]
              simp [insertAll, List.foldl_append, List.append_assoc]
      · intro pv hpv kp ps k d s
        cases pv with
        | obj nested =>
            have hn : sizeOf nested ≤ n := by
              simp at hpv
              omega
            simp only [findAddedEntry, faEntryDiffs, faEntrySM]
            rw [(ih.1) nested hn]
            simp [insertAll, List.append_assoc]
        | null => simp [findAddedEntry, faEntryDiffs, faEntrySM, insertAll]
        | bool b => simp [findAddedEntry, faEntryDiffs, faEntrySM, insertAll]
        | num n2 => simp [findAddedEntry, faEntryDiffs, faEntrySM, insertAll]
        | str s2 => simp [findAddedEntry, faEntryDiffs, faEntrySM, insertAll]
        | arr xs => simp [findAddedEntry, faEntryDiffs, faEntrySM, insertAll]

theorem findAdditionsGo_acc (gm : List (String × Json)) (kp : String)
    (ps : ConfigScope) (pm : List (String × Json)) (d : List ConfigDiff)
    (s : List (String × ConfigScope)) :
    findAdditionsGo gm kp ps pm (d, s) =
      (d ++ faDiffs gm kp pm, insertAll s (faSM gm kp ps pm)) :=
  (fa_acc_strong (sizeOf pm)).1 pm le_rfl gm kp ps d s

theorem diffTopLevel_eq (gm pm : List (String × Json)) :
    diffTopLevel gm pm =
      (cvDiffs pm "" gm ++ faDiffs gm "" pm,
        insertAll (insertAll [] (cvSM pm "" ConfigScope.global gm))
          (faSM gm "" ConfigScope.project pm)) := by
  unfold diffTopLevel compareValues findAdditions
  dsimp only
  rw [compareValuesObjGo_acc, findAdditionsGo_acc]
  simp

theorem insertAll_nil {V : Type} (s : List (String × V)) : insertAll s [] = s := rfl

theorem insertAll_cons {V : Type} (s : List (String × V)) (a : String) (b : V)
    (tail : List (String × V)) :
    insertAll s ((a, b) :: tail) = insertAll (insertAL s a b) tail := rfl

theorem insertAll_append {V : Type} (s xs ys : List (String × V)) :
    insertAll s (xs ++ ys) = insertAll (insertAll s xs) ys := by
  simp [insertAll, List.foldl_append]

theorem joinPath_empty (k : String) : joinPath "" k = k := by
  simp [joinPath]

theorem lookupAL_insertAll_skip {V : Type} (s entries : List (String × V)) (k : String)
    (h : ∀ e ∈ entries, e.1 ≠ k) :
    lookupAL (insertAll s entries) k = lookupAL s k := by
  induction entries generalizing s with
  | nil => rfl
  | cons e rest ih =>
      obtain ⟨a, b⟩ := e
      have h1 : a ≠ k := h (a, b) (by simp)
      rw [insertAll_cons, ih _ (fun e2 he2 => h e2 (List.mem_cons_of_mem _ he2)),
        lookupAL_insertAL, if_neg (fun hc => h1 hc.symm)]

theorem fa_sm_nested_bad : ∀ n : Nat,
    (∀ pm : List (String × Json), sizeOf pm ≤ n → ∀ gm kp ps, kp ≠ "" →
      ∀ e ∈ faSM gm kp ps pm, goodKey e.1 = false)
    ∧ (∀ pv : Json, sizeOf pv ≤ n → ∀ kp ps k, kp ≠ "" →
      ∀ e ∈ faEntrySM kp ps k pv, goodKey e.1 = false) := by
  intro n
  induction n with
  | zero =>
      constructor
      · intro pm h
        cases pm <;> simp at h
      · intro pv h
        cases pv <;> simp at h
  | succ n ih =>
      constructor
      · intro pm hpm gm kp ps hkp e he
        cases pm with
        | nil => simp [faSM] at he
        | cons hd rest =>
            obtain ⟨k2, pv⟩ := hd
            have hsz : sizeOf rest ≤ n ∧ sizeOf pv ≤ n := by
              simp at hpm
              omega
            simp only [faSM] at he
            rcases List.mem_append.mp he with h1 | h2
            · by_cases hl : (lookupAL gm k2).isSome
              · rw [if_pos hl] at h1
                simp at h1
              · rw [if_neg hl] at h1
                exact (ih.2) pv hsz.2 kp ps k2 hkp e h1
            · exact (ih.1) rest hsz.1 gm kp ps hkp e h2
      · intro pv hpv kp ps k hkp e he
        have hdot := joinPath_has_dot kp k hkp
        cases pv with
        | obj nested =>
            have hn : sizeOf nested ≤ n := by
              simp at hpv
              omega
            simp only [faEntrySM] at he
            rcases List.mem_cons.mp he with rfl | h2
            · exact goodKey_false_of_dot hdot
            · exact (ih.1) nested hn [] (joinPath kp k) ps
                (ne_empty_of_contains_dot hdot) e h2
        | null =>
            simp only [faEntrySM, List.mem_singleton] at he
            rw [he]
            exact goodKey_false_of_dot hdot
        | bool b =>
            simp only [faEntrySM, List.mem_singleton] at he
            rw [he]
            exact goodKey_false_of_dot hdot
        | num n2 =>
            simp only [faEntrySM, List.mem_singleton] at he
            rw [he]
            exact goodKey_false_of_dot hdot
        | str s2 =>
            simp only [faEntrySM, List.mem_singleton] at he
            rw [he]
            exact goodKey_false_of_dot hdot
        | arr xs =>
            simp only [faEntrySM, List.mem_singleton] at he
            rw [he]
            exact goodKey_false_of_dot hdot

theorem faEntrySM_lookup (ps : ConfigScope) (k k2 : String) (pv : Json)
    (s : List (String × ConfigScope)) (hk : goodKey k = true)
    (hk2 : goodKey k2 = true) :
    lookupAL (insertAll s (faEntrySM "" ps k2 pv)) k =
      if k = k2 then some ps else lookupAL s k := by
  have hskip : ∀ entries : List (String × ConfigScope),
      (∀ e ∈ entries, goodKey (Prod.fst e) = false) →
      ∀ s2 : List (String × ConfigScope),
        lookupAL (insertAll s2 entries) k = lookupAL s2 k := by
    intro entries hent s2
    apply lookupAL_insertAll_skip
    intro e he hek
    have hbad := hent e he
    rw [hek, hk] at hbad
    exact absurd hbad (by decide)
  cases pv with
  | obj nested =>
      simp only [faEntrySM]
      rw [joinPath_empty, insertAll_cons]
      rw [hskip (faSM [] k2 ps nested)
        ((fa_sm_nested_bad (sizeOf nested)).1 nested le_rfl [] k2 ps
          (goodKey_ne_empty hk2)) _]
      rw [lookupAL_insertAL]
  | null =>
      simp only [faEntrySM]
      rw [joinPath_empty, insertAll_cons, insertAll_nil, lookupAL_insertAL]
  | bool b =>
      simp only [faEntrySM]
      rw [joinPath_empty, insertAll_cons, insertAll_nil, lookupAL_insertAL]
  | num n2 =>
      simp only [faEntrySM]
      rw [joinPath_empty, insertAll_cons, insertAll_nil, lookupAL_insertAL]
  | str s2 =>
      simp only [faEntrySM]
      rw [joinPath_empty, insertAll_cons, insertAll_nil, lookupAL_insertAL]
  | arr xs =>
      simp only [faEntrySM]
      rw [joinPath_empty, insertAll_cons, insertAll_nil, lookupAL_insertAL]

theorem faSM_lookup_top (ps : ConfigScope) (k : String) (hk : goodKey k = true) :
    ∀ (pm gm : List (String × Json)) (s : List (String × ConfigScope)),
      fieldsGoodKeys pm = true → (keysAL pm).Nodup →
      lookupAL (insertAll s (faSM gm "" ps pm)) k =
        (match lookupAL pm k, lookupAL gm k with
         | some _, none => some ps
         | _, _ => lookupAL s k) := by
  intro pm
  induction pm with
  | nil =>
      intro gm s _ _
      simp [faSM, insertAll_nil, lookupAL]
  | cons hd rest ih =>
      obtain ⟨k2, pv⟩ := hd
      intro gm s hgood hnd
      simp only [fieldsGoodKeys, Bool.and_eq_true] at hgood
      obtain ⟨⟨hgk2, hgpv⟩, hgrest⟩ := hgood
      rw [keysAL_cons, List.nodup_cons] at hnd
      simp only [faSM]
      rw [insertAll_append]
      by_cases hl : (lookupAL gm k2).isSome
      · rw [if_pos hl, insertAll_nil, ih gm s hgrest hnd.2]
        by_cases hkk : k = k2
        · subst hkk
          have hrest : lookupAL rest k = none := lookupAL_eq_none_of_not_mem _ _ hnd.1
          have hcons : lookupAL ((k, pv) :: rest) k = some pv := by simp [lookupAL]
          rw [hrest, hcons]
          cases hgm : lookupAL gm k with
          | none =>
              rw [hgm] at hl
              exact absurd hl (by decide)
          | some w => rfl
        · have hcons : lookupAL ((k2, pv) :: rest) k = lookupAL rest k := by
            simp [lookupAL, hkk]
          rw [hcons]
      · rw [if_neg hl, ih gm (insertAll s (faEntrySM "" ps k2 pv)) hgrest hnd.2]
        have hE := faEntrySM_lookup ps k k2 pv s hk hgk2
        by_cases hkk : k = k2
        · subst hkk
          have hrest : lookupAL rest k = none := lookupAL_eq_none_of_not_mem _ _ hnd.1
          have hgm : lookupAL gm k = none := by
            cases hgm2 : lookupAL gm k with
            | none => rfl
            | some w => exact absurd (by rw [hgm2]; rfl) hl
          have hcons : lookupAL ((k, pv) :: rest) k = some pv := by simp [lookupAL]
          rw [hrest, hcons, hgm, hE, if_pos rfl]
        · have hcons : lookupAL ((k2, pv) :: rest) k = lookupAL rest k := by
            simp [lookupAL, hkk]
          rw [hcons, hE, if_neg hkk]

theorem cvSM_lookup (pm : List (String × Json)) (gs : ConfigScope) (k : String) :
    ∀ (gm : List (String × Json)) (s : List (String × ConfigScope)),
      (keysAL gm).Nodup →
      lookupAL (insertAll s (cvSM pm "" gs gm)) k =
        (match lookupAL gm k with
         | some gv =>
            match lookupAL pm k with
            | some pv => if gv ≠ pv then some ConfigScope.project else some gs
            | none => some ConfigScope.global
         | none => lookupAL s k) := by
  intro gm
  induction gm with
  | nil =>
      intro s _
      simp [cvSM, insertAll_nil, lookupAL]
  | cons hd rest ih =>
      obtain ⟨k2, gv⟩ := hd
      intro s hnd
      rw [keysAL_cons, List.nodup_cons] at hnd
      simp only [cvSM, joinPath_empty]
      rw [insertAll_append]
      by_cases hkk : k = k2
      · subst hkk
        have hrest : lookupAL rest k = none := lookupAL_eq_none_of_not_mem _ _ hnd.1
        have hcons : lookupAL ((k, gv) :: rest) k = some gv := by simp [lookupAL]
        rw [hcons]
        cases hpl : lookupAL pm k with
        | some pv =>
            by_cases hne : gv = pv
            · simp only [hpl, hne, ne_eq, not_true_eq_false, if_false]
              rw [insertAll_cons, insertAll_nil, ih _ hnd.2, hrest,
                lookupAL_insertAL, if_pos rfl]
            · simp only [hpl, hne, ne_eq, not_false_eq_true, if_true]
              rw [insertAll_cons, insertAll_nil, ih _ hnd.2, hrest,
                lookupAL_insertAL, if_pos rfl]
        | none =>
            simp only [hpl]
            rw [insertAll_cons, insertAll_nil, ih _ hnd.2, hrest,
              lookupAL_insertAL, if_pos rfl]
      · have hcons : lookupAL ((k2, gv) :: rest) k = lookupAL rest k := by
          simp [lookupAL, hkk]
        rw [hcons]
        cases hpl : lookupAL pm k2 with
        | some pv =>
            by_cases hne : gv = pv
            · simp only [hpl, hne, ne_eq, not_true_eq_false, if_false]
              rw [insertAll_cons, insertAll_nil, ih _ hnd.2, lookupAL_insertAL,
                if_neg hkk]
            · simp only [hpl, hne, ne_eq, not_false_eq_true, if_true]
              rw [insertAll_cons, insertAll_nil, ih _ hnd.2, lookupAL_insertAL,
                if_neg hkk]
        | none =>
            simp only [hpl]
            rw [insertAll_cons, insertAll_nil, ih _ hnd.2, lookupAL_insertAL,
              if_neg hkk]

theorem fa_diffs_nested_bad : ∀ n : Nat,
    (∀ pm : List (String × Json), sizeOf pm ≤ n → ∀ gm kp, kp ≠ "" →
      ∀ dd ∈ faDiffs gm kp pm, goodKey (diffKeyPath dd) = false)
    ∧ (∀ pv : Json, sizeOf pv ≤ n → ∀ kp k, kp ≠ "" →
      ∀ dd ∈ faEntryDiffs kp k pv, goodKey (diffKeyPath dd) = false) := by
  intro n
  induction n with
  | zero =>
      constructor
      · intro pm h
        cases pm <;> simp at h
      · intro pv h
        cases pv <;> simp at h
  | succ n ih =>
      constructor
      · intro pm hpm gm kp hkp dd hdd
        cases pm with
        | nil => simp [faDiffs] at hdd
        | cons hd rest =>
            obtain ⟨k2, pv⟩ := hd
            have hsz : sizeOf rest ≤ n ∧ sizeOf pv ≤ n := by
              simp at hpm
              omega
            simp only [faDiffs] at hdd
            rcases List.mem_append.mp hdd with h1 | h2
            · by_cases hl : (lookupAL gm k2).isSome
              · rw [if_pos hl] at h1
                simp at h1
              · rw [if_neg hl] at h1
                exact (ih.2) pv hsz.2 kp k2 hkp dd h1
            · exact (ih.1) rest hsz.1 gm kp hkp dd h2
      · intro pv hpv kp k hkp dd hdd
        have hdot := joinPath_has_dot kp k hkp
        cases pv with
        | obj nested =>
            have hn : sizeOf nested ≤ n := by
              simp at hpv
              omega
            simp only [faEntryDiffs] at hdd
            rcases List.mem_cons.mp hdd with rfl | h2
            · exact goodKey_false_of_dot hdot
            · exact (ih.1) nested hn [] (joinPath kp k)
                (ne_empty_of_contains_dot hdot) dd h2
        | null =>
            simp only [faEntryDiffs, List.mem_singleton] at hdd
            rw [hdd]
            exact goodKey_false_of_dot hdot
        | bool b =>
            simp only [faEntryDiffs, List.mem_singleton] at hdd
            rw [hdd]
            exact goodKey_false_of_dot hdot
        | num n2 =>
            simp only [faEntryDiffs, List.mem_singleton] at hdd
            rw [hdd]
            exact goodKey_false_of_dot hdot
        | str s2 =>
            simp only [faEntryDiffs, List.mem_singleton] at hdd
            rw [hdd]
            exact goodKey_false_of_dot hdot
        | arr xs =>
            simp only [faEntryDiffs, List.mem_singleton] at hdd
            rw [hdd]
            exact goodKey_false_of_dot hdot

theorem faEntryDiffs_eq (kp k : String) (pv : Json) :
    faEntryDiffs kp k pv =
      ConfigDiff.added (joinPath kp k) pv :: faEntryTail (joinPath kp k) pv := by
  cases pv <;> rfl

theorem faEntryTail_bad (kp2 : String) (h : kp2 ≠ "") (pv : Json) :
    ∀ dd ∈ faEntryTail kp2 pv, goodKey (diffKeyPath dd) = false := by
  cases pv with
  | obj nested =>
      intro dd hdd
      exact (fa_diffs_nested_bad (sizeOf nested)).1 nested le_rfl [] kp2 h dd hdd
  | null => intro dd hdd; simp [faEntryTail] at hdd
  | bool b => intro dd hdd; simp [faEntryTail] at hdd
  | num n2 => intro dd hdd; simp [faEntryTail] at hdd
  | str s2 => intro dd hdd; simp [faEntryTail] at hdd
  | arr xs => intro dd hdd; simp [faEntryTail] at hdd

theorem cvDiffs_keys (pm : List (String × Json)) :
    ∀ gm : List (String × Json), ∀ dd ∈ cvDiffs pm "" gm,
      diffKeyPath dd ∈ keysAL gm := by
  intro gm
  induction gm with
  | nil => intro dd hdd; simp [cvDiffs] at hdd
  | cons hd rest ih =>
      obtain ⟨k2, gv2⟩ := hd
      intro dd hdd
      simp only [cvDiffs] at hdd
      rw [keysAL_cons]
      rcases List.mem_append.mp hdd with h1 | h2
      · have hkey : diffKeyPath dd = k2 := by
          cases hpl : lookupAL pm k2 with
          | some pv2 =>
              rw [hpl] at h1
              by_cases hne : gv2 = pv2
              · simp [hne] at h1
              · simp only [ne_eq, hne, not_false_eq_true, if_true,
                  List.mem_singleton] at h1
                rw [h1]
                simp [diffKeyPath, joinPath_empty]
          | none =>
              rw [hpl] at h1
              simp only [List.mem_singleton] at h1
              rw [h1]
              simp [diffKeyPath, joinPath_empty]
        rw [hkey]
        exact List.mem_cons_self _ _
      · exact List.mem_cons_of_mem _ (ih dd h2)

theorem cvDiffs_mem_modified (pm : List (String × Json)) (k : String)
    (gv pv : Json) (hp : lookupAL pm k = some pv) (hne : gv ≠ pv) :
    ∀ gm : List (String × Json), lookupAL gm k = some gv →
      ConfigDiff.modified k gv pv ∈ cvDiffs pm "" gm := by
  intro gm
  induction gm with
  | nil => intro hg; simp [lookupAL] at hg
  | cons hd rest ih =>
      obtain ⟨k2, gv2⟩ := hd
      intro hg
      by_cases hkk : k = k2
      · subst hkk
        have hgv : gv2 = gv := by simpa [lookupAL] using hg
        subst hgv
        simp [cvDiffs, hp, hne, joinPath_empty]
      · have hg2 : lookupAL rest k = some gv := by simpa [lookupAL, hkk] using hg
        simp only [cvDiffs]
        exact List.mem_append_right _ (ih hg2)

theorem cvDiffs_mem_removed (pm : List (String × Json)) (k : String)
    (gv : Json) (hp : lookupAL pm k = none) :
    ∀ gm : List (String × Json), lookupAL gm k = some gv →
      ConfigDiff.removed k gv ∈ cvDiffs pm "" gm := by
  intro gm
  induction gm with
  | nil => intro hg; simp [lookupAL] at hg
  | cons hd rest ih =>
      obtain ⟨k2, gv2⟩ := hd
      intro hg
      by_cases hkk : k = k2
      · subst hkk
        have hgv : gv2 = gv := by simpa [lookupAL] using hg
        subst hgv
        simp [cvDiffs, hp, joinPath_empty]
      · have hg2 : lookupAL rest k = some gv := by simpa [lookupAL, hkk] using hg
        simp only [cvDiffs]
        exact List.mem_append_right _ (ih hg2)

theorem cvDiffs_not_at_key_of_eq (pm : List (String × Json)) (k : String)
    (v : Json) (hp : lookupAL pm k = some v) :
    ∀ gm : List (String × Json), (keysAL gm).Nodup → lookupAL gm k = some v →
      ∀ dd ∈ cvDiffs pm "" gm, diffKeyPath dd ≠ k := by
  intro gm
  induction gm with
  | nil => intro _ _ dd hdd; simp [cvDiffs] at hdd
  | cons hd rest ih =>
      obtain ⟨k2, gv2⟩ := hd
      intro hnd hg dd hdd
      rw [keysAL_cons, List.nodup_cons] at hnd
      simp only [cvDiffs] at hdd
      rcases List.mem_append.mp hdd with h1 | h2
      · by_cases hkk : k = k2
        · subst hkk
          have hgv : gv2 = v := by simpa [lookupAL] using hg
          rw [hp] at h1
          simp [hgv] at h1
        · intro hdk
          have hkey : diffKeyPath dd = k2 := by
            cases hpl : lookupAL pm k2 with
            | some pv2 =>
                rw [hpl] at h1
                by_cases hne : gv2 = pv2
                · simp [hne] at h1
                · simp only [ne_eq, hne, not_false_eq_true, if_true,
                    List.mem_singleton] at h1
                  rw [h1]
                  simp [diffKeyPath, joinPath_empty]
            | none =>
                rw [hpl] at h1
                simp only [List.mem_singleton] at h1
                rw [h1]
                simp [diffKeyPath, joinPath_empty]
          exact hkk (hdk.symm.trans hkey)
      · by_cases hkk : k = k2
        · subst hkk
          have hmem := cvDiffs_keys pm rest dd h2
          intro hdk
          rw [hdk] at hmem
          exact hnd.1 hmem
        · have hg2 : lookupAL rest k = some v := by simpa [lookupAL, hkk] using hg
          exact ih hnd.2 hg2 dd h2

theorem faDiffs_mem_added (gm : List (String × Json)) (k : String) (pv : Json)
    (hg : lookupAL gm k = none) :
    ∀ pm : List (String × Json), lookupAL pm k = some pv →
      ConfigDiff.added k pv ∈ faDiffs gm "" pm := by
  intro pm
  induction pm with
  | nil => intro hp; simp [lookupAL] at hp
  | cons hd rest ih =>
      obtain ⟨k2, pv2⟩ := hd
      intro hp
      by_cases hkk : k = k2
      · subst hkk
        have hpv : pv2 = pv := by simpa [lookupAL] using hp
        simp only [faDiffs]
        apply List.mem_append_left
        rw [if_neg (by rw [hg]; exact Bool.false_ne_true), faEntryDiffs_eq,
          joinPath_empty, hpv]
        exact List.mem_cons_self _ _
      · have hp2 : lookupAL rest k = some pv := by simpa [lookupAL, hkk] using hp
        simp only [faDiffs]
        exact List.mem_append_right _ (ih hp2)

theorem faDiffs_top_gm_none (k : String) (hk : goodKey k = true) :
    ∀ pm : List (String × Json), fieldsGoodKeys pm = true →
      ∀ gm : List (String × Json), ∀ dd ∈ faDiffs gm "" pm,
        diffKeyPath dd = k → lookupAL gm k = none := by
  intro pm
  induction pm with
  | nil => intro _ gm dd hdd; simp [faDiffs] at hdd
  | cons hd rest ih =>
      obtain ⟨k2, pv⟩ := hd
      intro hgood gm dd hdd hdk
      simp only [fieldsGoodKeys, Bool.and_eq_true] at hgood
      obtain ⟨⟨hgk2, hgpv⟩, hgrest⟩ := hgood
      simp only [faDiffs] at hdd
      rcases List.mem_append.mp hdd with h1 | h2
      · by_cases hl : (lookupAL gm k2).isSome
        · rw [if_pos hl] at h1
          simp at h1
        · rw [if_neg hl, faEntryDiffs_eq, joinPath_empty] at h1
          rcases List.mem_cons.mp h1 with h0 | h3
          · rw [h0] at hdk
            dsimp [diffKeyPath] at hdk
            rw [← hdk]
            cases hgl : lookupAL gm k2 with
            | none => rfl
            | some w => exact absurd (by rw [hgl]; rfl) hl
          · have hbad := faEntryTail_bad k2 (goodKey_ne_empty hgk2) pv dd h3
            rw [hdk, hk] at hbad
            exact absurd hbad (by decide)
      · exact ih hgrest gm dd h2 hdk

/-- Witness for C9 at a document whose matching key sits exactly at the
depth limit: the key at depth one is still matched with maxDepth one, and
the search agrees with the unlimited search on the truncated tree. -/
theorem search_depth_boundary_witness :
    searchValue depthOpts "npx" sampleDoc "" ConfigScope.global ["cfg"] 0 =
      searchNoLimit depthOpts "npx" (truncateJson 2 sampleDoc) "" ConfigScope.global ["cfg"] 0
    ∧ searchValue depthOpts "npx" sampleDoc "" ConfigScope.global ["cfg"] 0 =
      [⟨"mcpServers.npx", "<key> npx", ConfigScope.global, ["cfg"], ValueType.string⟩] := by
  refine ⟨?_, by decide⟩
  exact (search_depth_boundary depthOpts "npx" sampleDoc "" ConfigScope.global
    ["cfg"] 0 1).1 rfl

/-- C6 (corrected): for top-level keys that are non-empty and dot-free, and
duplicate-free input objects whose project-side keys are all non-empty and
dot-free at every depth, the diff classifies each key as the claim states: a
key present in both objects with equal values gets no diff record and is
attributed Global; values differing yields a Modified record with old the
global value and new the project value, attributed Project; a key only in
the global object yields a Removed record attributed Global; and a key only
in the project object yields an Added record attributed Project.  The
key-shape proviso is needed: the dot-joined paths of nested additions can
collide with a dotted top-level key. -/
theorem diff_classification (gm pm : List (String × Json))
    (hgn : (keysAL gm).Nodup) (hpn : (keysAL pm).Nodup)
    (hpk : fieldsGoodKeys pm = true)
    (k : String) (hk : goodKey k = true) :
    (∀ v, lookupAL gm k = some v → lookupAL pm k = some v →
      (∀ dd ∈ (diffTopLevel gm pm).1, diffKeyPath dd ≠ k)
      ∧ lookupAL (diffTopLevel gm pm).2 k = some ConfigScope.global)
    ∧ (∀ gv pv, lookupAL gm k = some gv → lookupAL pm k = some pv → gv ≠ pv →
      ConfigDiff.modified k gv pv ∈ (diffTopLevel gm pm).1
      ∧ lookupAL (diffTopLevel gm pm).2 k = some ConfigScope.project)
    ∧ (∀ gv, lookupAL gm k = some gv → lookupAL pm k = none →
      ConfigDiff.removed k gv ∈ (diffTopLevel gm pm).1
      ∧ lookupAL (diffTopLevel gm pm).2 k = some ConfigScope.global)
    ∧ (∀ pv, lookupAL gm k = none → lookupAL pm k = some pv →
      ConfigDiff.added k pv ∈ (diffTopLevel gm pm).1
      ∧ lookupAL (diffTopLevel gm pm).2 k = some ConfigScope.project) := by
  refine ⟨?_, ?_, ?_, ?_⟩
  · intro v hg hp
    constructor
    · intro dd hdd
      rw [diffTopLevel_eq] at hdd
      rcases List.mem_append.mp hdd with h1 | h2
      · exact cvDiffs_not_at_key_of_eq pm k v hp gm hgn hg dd h1
      · intro hdk
        have hnone := faDiffs_top_gm_none k hk pm hpk gm dd h2 hdk
        rw [hg] at hnone
        exact Option.noConfusion hnone
    · have hfa := faSM_lookup_top ConfigScope.project k hk pm gm
        (insertAll [] (cvSM pm "" ConfigScope.global gm)) hpk hpn
      rw [hg, hp] at hfa
      have hcv := cvSM_lookup pm ConfigScope.global k gm [] hgn
      rw [hg, hp] at hcv
      rw [diffTopLevel_eq]
      show lookupAL (insertAll (insertAll [] (cvSM pm "" ConfigScope.global gm))
        (faSM gm "" ConfigScope.project pm)) k = some ConfigScope.global
      have hfa2 : lookupAL (insertAll (insertAll []
          (cvSM pm "" ConfigScope.global gm))
          (faSM gm "" ConfigScope.project pm)) k =
          lookupAL (insertAll [] (cvSM pm "" ConfigScope.global gm)) k := hfa
      have hcv2 : lookupAL (insertAll [] (cvSM pm "" ConfigScope.global gm)) k =
          if v ≠ v then some ConfigScope.project else some ConfigScope.global := hcv
      rw [hfa2, hcv2, if_neg (fun hc => hc rfl)]
  · intro gv pv hg hp hne
    constructor
    · rw [diffTopLevel_eq]
      show ConfigDiff.modified k gv pv ∈ cvDiffs pm "" gm ++ faDiffs gm "" pm
      exact List.mem_append_left _ (cvDiffs_mem_modified pm k gv pv hp hne gm hg)
    · have hfa := faSM_lookup_top ConfigScope.project k hk pm gm
        (insertAll [] (cvSM pm "" ConfigScope.global gm)) hpk hpn
      rw [hg, hp] at hfa
      have hcv := cvSM_lookup pm ConfigScope.global k gm [] hgn
      rw [hg, hp] at hcv
      rw [diffTopLevel_eq]
      show lookupAL (insertAll (insertAll [] (cvSM pm "" ConfigScope.global gm))
        (faSM gm "" ConfigScope.project pm)) k = some ConfigScope.project
      have hfa2 : lookupAL (insertAll (insertAll []
          (cvSM pm "" ConfigScope.global gm))
          (faSM gm "" ConfigScope.project pm)) k =
          lookupAL (insertAll [] (cvSM pm "" ConfigScope.global gm)) k := hfa
      have hcv2 : lookupAL (insertAll [] (cvSM pm "" ConfigScope.global gm)) k =
          if gv ≠ pv then some ConfigScope.project else some ConfigScope.global := hcv
      rw [hfa2, hcv2, if_pos hne]
  · intro gv hg hp
    constructor
    · rw [diffTopLevel_eq]
      show ConfigDiff.removed k gv ∈ cvDiffs pm "" gm ++ faDiffs gm "" pm
      exact List.mem_append_left _ (cvDiffs_mem_removed pm k gv hp gm hg)
    · have hfa := faSM_lookup_top ConfigScope.project k hk pm gm
        (insertAll [] (cvSM pm "" ConfigScope.global gm)) hpk hpn
      rw [hg, hp] at hfa
      have hcv := cvSM_lookup pm ConfigScope.global k gm [] hgn
      rw [hg, hp] at hcv
      rw [diffTopLevel_eq]
      show lookupAL (insertAll (insertAll [] (cvSM pm "" ConfigScope.global gm))
        (faSM gm "" ConfigScope.project pm)) k = some ConfigScope.global
      have hfa2 : lookupAL (insertAll (insertAll []
          (cvSM pm "" ConfigScope.global gm))
          (faSM gm "" ConfigScope.project pm)) k =
          lookupAL (insertAll [] (cvSM pm "" ConfigScope.global gm)) k := hfa
      have hcv2 : lookupAL (insertAll [] (cvSM pm "" ConfigScope.global gm)) k =
          some ConfigScope.global := hcv
      rw [hfa2, hcv2]
  · intro pv hg hp
    constructor
    · rw [diffTopLevel_eq]
      show ConfigDiff.added k pv ∈ cvDiffs pm "" gm ++ faDiffs gm "" pm
      exact List.mem_append_right _ (faDiffs_mem_added gm k pv hg pm hp)
    · have hfa := faSM_lookup_top ConfigScope.project k hk pm gm
        (insertAll [] (cvSM pm "" ConfigScope.global gm)) hpk hpn
      rw [hg, hp] at hfa
      rw [diffTopLevel_eq]
      show lookupAL (insertAll (insertAll [] (cvSM pm "" ConfigScope.global gm))
        (faSM gm "" ConfigScope.project pm)) k = some ConfigScope.project
      exact hfa

/-- Witness for C6 at the spec example: global x:1,y:2 against project
x:1,y:3,z:4 yields exactly the Modified record for y and the Added record
for z, with x attributed Global and y, z attributed Project; the source
attributions are obtained from the classification theorem itself. -/
theorem diff_classification_witness :
    (diffTopLevel specGm specPm).1 =
      [ConfigDiff.modified "y" (Json.num 2) (Json.num 3),
        ConfigDiff.added "z" (Json.num 4)]
    ∧ lookupAL (diffTopLevel specGm specPm).2 "x" = some ConfigScope.global
    ∧ lookupAL (diffTopLevel specGm specPm).2 "y" = some ConfigScope.project
    ∧ lookupAL (diffTopLevel specGm specPm).2 "z" = some ConfigScope.project := by
  refine ⟨by decide, ?_, ?_, ?_⟩
  · exact ((diff_classification specGm specPm (by decide) (by decide) (by decide)
      "x" (by decide)).1 (Json.num 1) rfl rfl).2
  · exact ((diff_classification specGm specPm (by decide) (by decide) (by decide)
      "y" (by decide)).2.1 (Json.num 2) (Json.num 3) rfl rfl (by decide)).2
  · exact ((diff_classification specGm specPm (by decide) (by decide) (by decide)
      "z" (by decide)).2.2.2 (Json.num 4) rfl rfl).2

/-- Counterexample to the unrestricted C6 classification: both objects are
duplicate-free and hold the dotted key z.a with the same value, yet the
diff reports an Added record at path z.a (emitted by the nested recursion
into the project-only key z, whose member a joins to the path z.a) and the
source map attributes z.a to Project instead of Global. -/
theorem diff_dot_key_counterexample :
    (keysAL dotGm).Nodup
    ∧ (keysAL dotPm).Nodup
    ∧ lookupAL dotGm "z.a" = some (Json.num 1)
    ∧ lookupAL dotPm "z.a" = some (Json.num 1)
    ∧ ConfigDiff.added "z.a" (Json.num 2) ∈ (diffTopLevel dotGm dotPm).1
    ∧ lookupAL (diffTopLevel dotGm dotPm).2 "z.a" = some ConfigScope.project := by
  refine ⟨by decide, by decide, rfl, rfl, by decide, rfl⟩

end CCM
